import Mathlib

/-!
Verification of the dataform-bootstrap action-graph construction and
query-deduplication core.

This file shallowly embeds the relevant Python source of the repository:

* `src/utils/similarity.py` — query normalisation and the similarity
  ratio (together with the parts of CPython's `difflib.SequenceMatcher`
  that `calculate_similarity` calls: `SequenceMatcher(None, a, b).ratio()`,
  i.e. `__chain_b` with autojunk, `find_longest_match` and
  `get_matching_blocks`);
* `src/generators/sql.py` — `SQLGenerator.deduplicate_queries` and the
  pure content of `SQLGenerator.generate_sql_files` (the list of
  (path, body) file writes it performs, in order);
* `src/generators/actions.py` — the data model (`DependencyTarget`,
  `ColumnConfig`, `ActionDefinition`), `DataformActionsGenerator` and
  `generate_actions_yaml`.

Machine reals (Python floats) are embedded as exact rationals; Python
`datetime` values are embedded as integers (only their total order is
used); Python dicts are embedded as insertion-ordered association lists,
matching CPython's guaranteed dict iteration order; Python sets of
`DependencyTarget` are embedded as insertion-ordered duplicate-free lists
(set iteration order is unspecified in Python, and every theorem below is
insensitive to that order).  Loops whose termination is not structural are
given explicit fuel, always called with enough fuel that exhaustion is
unreachable.
-/

/-! ### Python string primitives

Python `str` is embedded as `String` / `List Char`; comparisons are
code-point lexicographic, exactly Python's `<` on `str`. -/

/-- Code-point lexicographic strict order on character lists: Python's
`<` on strings. -/
def charListLt : List Char → List Char → Bool
  | [], [] => false
  | [], _ :: _ => true
  | _ :: _, [] => false
  | c :: cs, d :: ds =>
    if c.toNat < d.toNat then true
    else if d.toNat < c.toNat then false
    else charListLt cs ds

/-- Python `a <= b` on strings (code-point lexicographic). -/
def strLe (a b : String) : Bool := !(charListLt b.data a.data)

/-- Python `a < b` on strings. -/
def strLt (a b : String) : Bool := charListLt a.data b.data

/-- The whitespace characters of Python's `str.split()` (`str.isspace`):
ASCII whitespace, the C1 controls `\x1c`–`\x1f` and `\x85`, and the
Unicode space separators. -/
def pyIsSpace (c : Char) : Bool :=
  c.toNat ∈ [0x9, 0xa, 0xb, 0xc, 0xd, 0x1c, 0x1d, 0x1e, 0x1f, 0x20, 0x85,
    0xa0, 0x1680, 0x2000, 0x2001, 0x2002, 0x2003, 0x2004, 0x2005, 0x2006,
    0x2007, 0x2008, 0x2009, 0x200a, 0x2028, 0x2029, 0x202f, 0x205f, 0x3000]

/-- Python `str.lower()` restricted to ASCII letters (the queries this
repository manipulates are ASCII SQL; non-ASCII case folding is not
modelled). -/
def asciiLower (c : Char) : Char :=
  if 0x41 ≤ c.toNat ∧ c.toNat ≤ 0x5a then Char.ofNat (c.toNat + 0x20) else c

/-- Split a character list at `\n`, for the `re.MULTILINE` handling of
line comments. -/
def splitOnNewline : List Char → List (List Char)
  | [] => [[]]
  | c :: cs =>
    let rest := splitOnNewline cs
    if c = '\n' then [] :: rest
    else match rest with
      | [] => [[c]]
      | l :: ls => (c :: l) :: ls

/-- Re-join lines with `\n` (inverse of `splitOnNewline`). -/
def joinNewline : List (List Char) → List Char
  | [] => []
  | [l] => l
  | l :: ls => l ++ '\n' :: joinNewline ls

/-- `re.sub(r'--.*$', '', line)` on a single line: keep the prefix before
the first `--`.  `.` does not match `\n`, `$` matches at end of line, so
the match consumes exactly from the first `--` to the line end. -/
def cutLineComment : List Char → List Char
  | [] => []
  | '-' :: '-' :: _ => []
  | c :: cs => c :: cutLineComment cs

/-- `re.sub(r'--.*$', '', query, flags=re.MULTILINE)`: apply
`cutLineComment` to every `\n`-separated line. -/
def stripLineComments (s : List Char) : List Char :=
  joinNewline ((splitOnNewline s).map cutLineComment)

/-- Scan for the first `*/` and return the remainder after it, if any.
This is the non-greedy `.*?\*/` tail of the block-comment pattern. -/
def findBlockClose : List Char → Option (List Char)
  | [] => none
  | '*' :: '/' :: r => some r
  | _ :: r => findBlockClose r

/-- One fuelled pass of `re.sub(r'/\*.*?\*/', '', query, flags=re.DOTALL)`:
at each position, a match starts at a literal `/*` and extends to the
nearest following `*/` (non-greedy); if no `*/` follows, the regex engine
finds no further match and the rest of the string is kept.  Each step
consumes at least one character, so fuel `s.length` suffices. -/
def stripBlockCommentsFuel : Nat → List Char → List Char
  | 0, s => s
  | fuel + 1, s =>
    match s with
    | [] => []
    | '/' :: '*' :: rest =>
      match findBlockClose rest with
      | some r => stripBlockCommentsFuel fuel r
      | none => '/' :: '*' :: rest
    | c :: cs => c :: stripBlockCommentsFuel fuel cs

/-- `re.sub(r'/\*.*?\*/', '', query, flags=re.DOTALL)`. -/
def stripBlockComments (s : List Char) : List Char :=
  stripBlockCommentsFuel s.length s

/-- Python `str.split()` (no argument): split on runs of whitespace,
discarding empty pieces. -/
def pySplit : List Char → List (List Char)
  | [] => []
  | c :: cs =>
    let rest := pySplit cs
    if pyIsSpace c then rest
    else match cs with
      | [] => [[c]]
      | d :: _ =>
        if pyIsSpace d then [c] :: rest
        else match rest with
          | [] => [[c]]
          | l :: ls => (c :: l) :: ls

/-- `' '.join(pieces)`. -/
def joinSpace : List (List Char) → List Char
  | [] => []
  | [l] => l
  | l :: ls => l ++ ' ' :: joinSpace ls

/-! ### `src/utils/similarity.py` -/

/-- `QuerySimilarityConfig`: configuration for query similarity analysis. -/
structure QuerySimilarityConfig where
  ignore_case : Bool := true
  ignore_whitespace : Bool := true
  ignore_comments : Bool := true
  min_length : Nat := 10

/-- The default `QuerySimilarityConfig()` used whenever callers pass
`config=None`. -/
def defaultSimilarityConfig : QuerySimilarityConfig := {}

/-- `normalise_query(query, config)`: strip `--` line comments, then
`/* */` block comments, collapse whitespace runs to single spaces via
`' '.join(query.split())`, and lower-case, each step gated on its config
flag, in source order. -/
def normalise_query (query : String) (config : QuerySimilarityConfig) : String :=
  let s := query.data
  let s := if config.ignore_comments then stripBlockComments (stripLineComments s) else s
  let s := if config.ignore_whitespace then joinSpace (pySplit s) else s
  let s := if config.ignore_case then s.map asciiLower else s
  ⟨s⟩

/-! ### `difflib.SequenceMatcher(None, a, b).ratio()`

CPython 3 `difflib.py`.  `isjunk` is `None` throughout this repository, so
`bjunk` is always empty; `autojunk` is left at its default `True`. -/

/-- The ascending position list `b2j[c]` before the autojunk purge: the
positions of `c` in `b`, in increasing order (built by `__chain_b`'s
enumeration loop). -/
def occurrenceList (b : List Char) (c : Char) : List Nat :=
  (List.range b.length).filter (fun j => b.getD j ' ' == c)

/-- `__chain_b`'s autojunk rule: with `autojunk` on and `len(b) >= 200`,
an element occurring more than `len(b) // 100 + 1` times is "popular" and
is purged from `b2j`. -/
def popularChar (b : List Char) (c : Char) : Bool :=
  decide (200 ≤ b.length) && decide (b.length / 100 + 1 < (occurrenceList b c).length)

/-- `b2j.get(c, [])` after the autojunk purge (no junk: `isjunk is None`). -/
def b2j (b : List Char) (c : Char) : List Nat :=
  if popularChar b c then [] else occurrenceList b c

/-- `j2len.get(j, 0)` on the embedded dict (association list; keys within
one row are distinct, so first-match lookup is dict lookup). -/
def dget (d : List (Nat × Nat)) (j : Nat) : Nat :=
  match d.find? (fun p => p.1 == j) with
  | some p => p.2
  | none => 0

/-- The inner `for j in b2j.get(a[i], nothing)` loop of
`find_longest_match`, for one row `i`: `j < blo` is `continue`, `j >= bhi`
is `break` (the position list is ascending, so breaking equals truncating),
`k = newj2len[j] = j2len.get(j-1, 0) + 1` (Python's `j-1` at `j = 0` is
`-1`, never a key, hence `0`), and `k > bestsize` updates the best block
to `(i-k+1, j-k+1, k)`.  State: (newj2len, (besti, bestj, bestsize)). -/
def flmRow (j2len : List (Nat × Nat)) (i : Nat) (js : List Nat)
    (blo bhi : Nat) (best : Nat × Nat × Nat) :
    List (Nat × Nat) × (Nat × Nat × Nat) :=
  ((js.filter (fun j => decide (blo ≤ j))).takeWhile (fun j => decide (j < bhi))).foldl
    (fun st j =>
      let k := (if j = 0 then 0 else dget j2len (j - 1)) + 1
      (st.1 ++ [(j, k)],
        if st.2.2.2 < k then (i + 1 - k, j + 1 - k, k) else st.2))
    ([], best)

/-- The dict phase of `find_longest_match`: the `for i in range(alo, ahi)`
loop, threading `j2len` and the best block, starting from
`(alo, blo, 0)`. -/
def flmDict (a b : List Char) (alo ahi blo bhi : Nat) : Nat × Nat × Nat :=
  ((List.range' alo (ahi - alo)).foldl
    (fun (st : List (Nat × Nat) × (Nat × Nat × Nat)) i =>
      flmRow st.1 i (b2j b (a.getD i ' ')) blo bhi st.2)
    ([], (alo, blo, 0))).2

/-- The first extension loop of `find_longest_match`: extend the best
block backwards while the preceding elements match (`bjunk` is empty, so
`not isbjunk(...)` is vacuously true).  Each iteration decreases `besti`
by one and requires `besti > alo`, so fuel `besti + 1` suffices. -/
def extendBack (a b : List Char) (alo blo : Nat) :
    Nat → Nat × Nat × Nat → Nat × Nat × Nat
  | 0, st => st
  | fuel + 1, (besti, bestj, bestsize) =>
    if alo < besti ∧ blo < bestj ∧
        a.getD (besti - 1) ' ' = b.getD (bestj - 1) ' ' then
      extendBack a b alo blo fuel (besti - 1, bestj - 1, bestsize + 1)
    else (besti, bestj, bestsize)

/-- The second extension loop of `find_longest_match`: extend the best
block forwards while the following elements match.  Each iteration needs
`besti + bestsize < ahi`, so fuel `ahi + 1` suffices.  The third and
fourth loops extend only over junk elements and never fire, `bjunk` being
empty. -/
def extendFwd (a b : List Char) (ahi bhi besti bestj : Nat) :
    Nat → Nat → Nat
  | 0, bestsize => bestsize
  | fuel + 1, bestsize =>
    if besti + bestsize < ahi ∧ bestj + bestsize < bhi ∧
        a.getD (besti + bestsize) ' ' = b.getD (bestj + bestsize) ' ' then
      extendFwd a b ahi bhi besti bestj fuel (bestsize + 1)
    else bestsize

/-- `find_longest_match(alo, ahi, blo, bhi)` with `isjunk is None`. -/
def find_longest_match (a b : List Char) (alo ahi blo bhi : Nat) :
    Nat × Nat × Nat :=
  let d := flmDict a b alo ahi blo bhi
  let e := extendBack a b alo blo (d.1 + 1) d
  let k := extendFwd a b ahi bhi e.1 e.2.1 (ahi + 1) e.2.2
  (e.1, e.2.1, k)

/-- The total size of the matching blocks of `get_matching_blocks`
restricted to the range `[alo, ahi) × [blo, bhi)`, i.e. the `matches`
value of `ratio()`.  `get_matching_blocks` maintains an explicit queue
only to avoid Python's recursion limit; its result is the natural
recursion below (sorting and collapsing adjacent blocks change neither
membership nor total size, and only the total enters `ratio()`).  One
recursion level shrinks `(ahi - alo) + (bhi - blo)` by at least one, so
fuel `(ahi - alo) + (bhi - blo) + 1` suffices. -/
def matchesFuel (a b : List Char) : Nat → Nat → Nat → Nat → Nat → Nat
  | 0, _, _, _, _ => 0
  | fuel + 1, alo, ahi, blo, bhi =>
    let m := find_longest_match a b alo ahi blo bhi
    let i := m.1
    let j := m.2.1
    let k := m.2.2
    if k = 0 then 0
    else
      k + (if alo < i ∧ blo < j then matchesFuel a b fuel alo i blo j else 0)
        + (if i + k < ahi ∧ j + k < bhi then matchesFuel a b fuel (i + k) ahi (j + k) bhi else 0)

/-- `sum(triple[-1] for triple in self.get_matching_blocks())`. -/
def matchesTotal (a b : List Char) : Nat :=
  matchesFuel a b (a.length + b.length + 1) 0 a.length 0 b.length

/-- `SequenceMatcher(None, a, b).ratio()`: `2.0 * matches / (la + lb)`,
and `1.0` when both sequences are empty (`_calculate_ratio`). -/
def ratioQ (a b : List Char) : ℚ :=
  if a.length + b.length = 0 then 1
  else (2 * matchesTotal a b : ℚ) / ((a.length + b.length : Nat) : ℚ)

/-- `calculate_similarity(query1, query2, config)`: normalise both
queries, return `0.0` if either normalised form is shorter than
`min_length`, else the `SequenceMatcher` ratio of the normalised forms. -/
def calculate_similarity (query1 query2 : String)
    (config : QuerySimilarityConfig) : ℚ :=
  let n1 := (normalise_query query1 config).data
  let n2 := (normalise_query query2 config).data
  if n1.length < config.min_length ∨ n2.length < config.min_length then 0
  else ratioQ n1 n2

/-! ### Python's stable sort

`list.sort(key=...)` and `sorted(...)` are stable and order by `<` on
keys.  A stable sort's output is uniquely determined by that
specification, so the insertion sort below is extensionally Python's
sort: `le` must be the total preorder `key x ≤ key y`; an element is
inserted before the first element it is `le`-related to, so elements with
equal keys keep their original order. -/

/-- Insert `x` before the first element `y` with `le x y`. -/
def insertOrdered {α : Type} (le : α → α → Bool) (x : α) : List α → List α
  | [] => [x]
  | y :: ys => if le x y then x :: y :: ys else y :: insertOrdered le x ys

/-- Stable sort by the total preorder `le` (Python `list.sort`). -/
def stableSort {α : Type} (le : α → α → Bool) : List α → List α
  | [] => []
  | x :: xs => insertOrdered le x (stableSort le xs)

/-! ### `src/models/metadata.py` — the descriptor model

`datetime` values are embedded as `Int` (only their total order is used);
BigQuery API-repr dicts (`destination_table`, `referenced_tables`) are
embedded as a record of their three consumed keys. -/

/-- A BigQuery table reference dict `{projectId, datasetId, tableId}`. -/
structure TableRefDict where
  projectId : String
  datasetId : String
  tableId : String
deriving DecidableEq, Repr

/-- `JobMetadata`: metadata for a BigQuery job. -/
structure JobMetadata where
  job_id : String
  created_time : Int
  job_type : String
  statement_type : Option String := none
  destination_table : Option TableRefDict := none
  query : Option String := none
  referenced_tables : List TableRefDict := []
  labels : List (String × String) := []
deriving DecidableEq, Repr

/-- `ColumnMetadata`: a BigQuery column, with nested `fields` for RECORD
types. -/
inductive ColumnMetadata where
  | mk (name : String) (field_type : String) (description : Option String)
      (mode : String) (policy_tags : List String)
      (fields : List ColumnMetadata) (tags : List String)

/-- Projection: `column.name`. -/
def ColumnMetadata.name : ColumnMetadata → String
  | .mk n _ _ _ _ _ _ => n

/-- Projection: `column.field_type`. -/
def ColumnMetadata.field_type : ColumnMetadata → String
  | .mk _ t _ _ _ _ _ => t

/-- Projection: `column.description`. -/
def ColumnMetadata.description : ColumnMetadata → Option String
  | .mk _ _ d _ _ _ _ => d

/-- Projection: `column.mode`. -/
def ColumnMetadata.mode : ColumnMetadata → String
  | .mk _ _ _ m _ _ _ => m

/-- Projection: `column.policy_tags`. -/
def ColumnMetadata.policy_tags : ColumnMetadata → List String
  | .mk _ _ _ _ p _ _ => p

/-- Projection: `column.fields` (nested columns of a RECORD). -/
def ColumnMetadata.fields : ColumnMetadata → List ColumnMetadata
  | .mk _ _ _ _ _ f _ => f

/-- Projection: `column.tags`. -/
def ColumnMetadata.tags : ColumnMetadata → List String
  | .mk _ _ _ _ _ _ t => t

/-- `SchemaMetadata`: the schema of one table. -/
structure SchemaMetadata where
  columns : List ColumnMetadata := []
  primary_keys : Option (List String) := none
  foreign_keys : Option (List (String × String)) := none

/-- The two keys of the BigQuery `timePartitioning` API repr consumed by
the generator.  `partitioning.get('expirationMs')` is a decimal string in
the API repr; it is carried here as its integer value (`int(...)` of it),
with `none` for an absent or empty (falsy) entry. -/
structure PartitioningSpec where
  field : Option String := none
  expirationMs : Option Int := none

/-- `TableMetadata`: metadata for a BigQuery table or view.  A `none`
`partitioning`/`clustering`/`labels` covers both Python `None` and the
empty (falsy) collection, which the generator treats identically. -/
structure TableMetadata where
  project_id : String
  dataset_id : String
  table_id : String
  table_type : String
  schema : SchemaMetadata
  created_time : Option Int := none
  last_modified_time : Option Int := none
  partitioning : Option PartitioningSpec := none
  clustering : Option (List String) := none
  labels : Option (List (String × String)) := none

/-! ### `src/generators/sql.py` — `SQLGenerator`

The generator's effect is the ordered list of `(path, body)` SQL file
writes it performs; paths are relative to `definitions_dir`.  The
deduplication audit log is an independent side effect and is not part of
the written SQL content. -/

/-- An accepted entry of `unique_queries`:
`{'query': ..., 'job_id': ..., 'created_time': ...}`. -/
structure UniqueQuery where
  query : String
  job_id : String
  created_time : Int
deriving DecidableEq, Repr

/-- `if not job.query: continue` — Python truthiness: both `None` and the
empty string are skipped. -/
def queryText (job : JobMetadata) : Option String :=
  match job.query with
  | none => none
  | some q => if q = "" then none else some q

/-- `SQLGenerator.deduplicate_queries(jobs)`: scan jobs in order; a job
with query text is appended as a new canonical entry unless its query
scores `>= threshold` against some already-accepted canonical query
(`calculate_similarity(job.query, existing['query'])`, default config);
otherwise it is recorded only in the audit log. -/
def deduplicate_queries (threshold : ℚ) (jobs : List JobMetadata) :
    List UniqueQuery :=
  jobs.foldl (fun unique_queries job =>
    match queryText job with
    | none => unique_queries
    | some q =>
      if unique_queries.any (fun existing =>
          decide (threshold ≤ calculate_similarity q existing.query defaultSimilarityConfig))
      then unique_queries
      else unique_queries ++ [⟨q, job.job_id, job.created_time⟩]) []

/-- Append `j` to the group of key `k`, creating the group at the end if
new: the behaviour of an insertion-ordered Python dict of lists. -/
def addToGroups {κ : Type} [DecidableEq κ]
    (groups : List (κ × List JobMetadata)) (k : κ) (j : JobMetadata) :
    List (κ × List JobMetadata) :=
  match groups with
  | [] => [(k, [j])]
  | g :: rest => if g.1 = k then (g.1, g.2 ++ [j]) :: rest else g :: addToGroups rest k j

/-- The grouping key of `generate_sql_files`:
`(job.destination_table['datasetId'], job.destination_table['tableId'])` —
the `projectId` is not consulted. -/
def jobGroupKey (job : JobMetadata) : Option (String × String) :=
  job.destination_table.map (fun d => (d.datasetId, d.tableId))

/-- The `jobs_by_table` dict of `generate_sql_files`: jobs with a
destination, grouped by `(datasetId, tableId)` in insertion order. -/
def jobsByTable (jobs : List JobMetadata) :
    List ((String × String) × List JobMetadata) :=
  jobs.foldl (fun groups j =>
    match jobGroupKey j with
    | none => groups
    | some k => addToGroups groups k j) []

/-- `max(unique_queries, key=lambda x: x['created_time'])`: Python `max`
keeps the first of several maximal elements. -/
def maxByCreated (e : UniqueQuery) (es : List UniqueQuery) : UniqueQuery :=
  es.foldl (fun best x => if best.created_time < x.created_time then x else best) e

/-- `SQLGenerator.generate_sql_files(jobs)`: for each destination group in
insertion order, deduplicate its jobs' queries and, if any canonical
query remains, write the most recently created one to
`{dataset_id}/{table_id}.sql`.  Returns the ordered `(path, body)`
writes. -/
def generate_sql_files (threshold : ℚ) (jobs : List JobMetadata) :
    List (String × String) :=
  (jobsByTable jobs).flatMap (fun g =>
    match deduplicate_queries threshold g.2 with
    | [] => []
    | e :: es => [(g.1.1 ++ "/" ++ g.1.2 ++ ".sql", (maxByCreated e es).query)])

/-! ### `src/generators/actions.py` — data model and generator

YAML scalars/collections are embedded as `YVal`; a rendered action is the
pair of its kind key and the inner insertion-ordered dict. -/

/-- A YAML value: the codomain of the rendered dictionaries. -/
inductive YVal where
  | null : YVal
  | str : String → YVal
  | int : Int → YVal
  | bool : Bool → YVal
  | arr : List YVal → YVal
  | obj : List (String × YVal) → YVal

/-- `DependencyTarget`: a full dependency reference.  Equality and
hashing are on the triple, so Python sets deduplicate by triple. -/
structure DependencyTarget where
  project : String
  dataset : String
  name : String
deriving DecidableEq, Repr

/-- `DependencyTarget.to_dict()`. -/
def DependencyTarget.to_dict (d : DependencyTarget) : YVal :=
  .obj [("project", .str d.project), ("dataset", .str d.dataset), ("name", .str d.name)]

/-- `ColumnConfig`: a Dataform column configuration with path-based
structure. -/
structure ColumnConfig where
  path : List String
  description : Option String := none
  tags : List String := []
  bigquery_policy_tags : List String := []
deriving DecidableEq, Repr

/-- Python truthiness of an optional string field (`if self.description:`):
present and non-empty. -/
def optStrTruthy : Option String → Bool
  | none => false
  | some s => decide (s ≠ "")

/-- `ColumnConfig.to_dict()`: `path` always, then `description`, sorted
`tags` and sorted `bigqueryPolicyTags` when truthy. -/
def ColumnConfig.to_dict (c : ColumnConfig) : YVal :=
  .obj ([("path", YVal.arr (c.path.map YVal.str))]
    ++ (match c.description with
        | some d => if d ≠ "" then [("description", YVal.str d)] else []
        | none => [])
    ++ (if c.tags ≠ [] then
          [("tags", YVal.arr ((stableSort strLe c.tags).map YVal.str))] else [])
    ++ (if c.bigquery_policy_tags ≠ [] then
          [("bigqueryPolicyTags", YVal.arr ((stableSort strLe c.bigquery_policy_tags).map YVal.str))]
        else []))

/-- `ActionDefinition`: a single Dataform action definition. -/
structure ActionDefinition where
  type : String
  name : String
  schema : String
  project : String
  filename : Option String := none
  description : Option String := none
  columns : List ColumnConfig := []
  dependency_targets : List DependencyTarget := []
  config : List (String × YVal) := []
  disabled : Option Bool := none

/-- Lexicographic `<=` on Python string lists (`sorted(key=lambda x: x.path)`). -/
def pathLe : List String → List String → Bool
  | [], _ => true
  | _ :: _, [] => false
  | a :: as, b :: bs =>
    if strLt a b then true else if strLt b a then false else pathLe as bs

/-- Lexicographic `<=` on `(project, dataset, name)` sort keys. -/
def depLe (d e : DependencyTarget) : Bool :=
  if strLt d.project e.project then true else if strLt e.project d.project then false
  else if strLt d.dataset e.dataset then true else if strLt e.dataset d.dataset then false
  else strLe d.name e.name

/-- `dict.update` for one key: replace in place if the key exists, else
append. -/
def updateAssoc (d : List (String × YVal)) (kv : String × YVal) :
    List (String × YVal) :=
  match d with
  | [] => [kv]
  | p :: rest => if p.1 = kv.1 then (p.1, kv.2) :: rest else p :: updateAssoc rest kv

/-- `action_dict[self.type].update(self.config)`. -/
def updateAll (d : List (String × YVal)) (config : List (String × YVal)) :
    List (String × YVal) :=
  config.foldl updateAssoc d

/-- `ActionDefinition.to_dict()`: the `{type: inner}` rendering.  A
non-declaration with falsy `filename` (Python `None` or `""`) raises
`ValueError`; a declaration skips the `filename` key without checking it.
`description`, `columns` (sorted by path) and `dependencyTargets` (sorted
by triple) are emitted when truthy for every action type, and `config` is
merged last. -/
def ActionDefinition.to_dict (a : ActionDefinition) :
    Except String (String × List (String × YVal)) :=
  let base := [("name", YVal.str a.name), ("dataset", YVal.str a.schema),
    ("project", YVal.str a.project)]
  let withFile : Except String (List (String × YVal)) :=
    if a.type ≠ "declaration" then
      if optStrTruthy a.filename then
        .ok (base ++ [("filename", YVal.str (a.filename.getD ""))])
      else
        .error ("Filename is required for non-declaration action " ++ a.name)
    else .ok base
  match withFile with
  | .error e => .error e
  | .ok d =>
    let d := d ++ (match a.description with
      | some s => if s ≠ "" then [("description", YVal.str s)] else []
      | none => [])
    let d := d ++ (if a.columns ≠ [] then
        [("columns", YVal.arr
          (((stableSort (fun x y => pathLe x.path y.path) a.columns)).map ColumnConfig.to_dict))]
      else [])
    let d := d ++ (if a.dependency_targets ≠ [] then
        [("dependencyTargets", YVal.arr
          ((stableSort depLe a.dependency_targets).map DependencyTarget.to_dict))]
      else [])
    .ok (a.type, updateAll d a.config)

/-- Split a character list at a separator character, Python
`str.split(sep)`: `""` splits to `[""]`. -/
def splitOnChar (sep : Char) : List Char → List (List Char)
  | [] => [[]]
  | c :: cs =>
    let rest := splitOnChar sep cs
    if c = sep then [] :: rest
    else match rest with
      | [] => [[c]]
      | l :: ls => (c :: l) :: ls

/-- `DataformActionsGenerator._parse_column_path`: `column_name.split('.')`. -/
def parse_column_path (column_name : String) : List String :=
  (splitOnChar '.' column_name.data).map (fun l => ⟨l⟩)

/-- `DataformActionsGenerator._convert_column_metadata`: only the
top-level column is consulted — `path` from splitting its `name` on `.`,
its own `description`, `tags` and `policy_tags`; the nested `fields` are
not visited. -/
def convert_column_metadata (column : ColumnMetadata) : ColumnConfig :=
  { path := parse_column_path column.name
    description := column.description
    tags := column.tags
    bigquery_policy_tags := column.policy_tags }

/-- `DataformActionsGenerator._generate_config_from_table`:
`partitionBy`/`partitionExpirationDays` from a truthy partition spec
(`int(int(ms) / (24 * 60 * 60 * 1000))` — division truncated toward
zero, modelled exactly on `ℤ` by `Int.tdiv`), `clusterBy` and `labels`
when truthy. -/
def generate_config_from_table (table : TableMetadata) : List (String × YVal) :=
  let config : List (String × YVal) := []
  let config := match table.partitioning with
    | none => config
    | some p =>
      (config ++ [("partitionBy", match p.field with
        | some f => YVal.str f
        | none => YVal.null)])
      ++ (match p.expirationMs with
          | some ms => [("partitionExpirationDays", YVal.int (Int.tdiv ms 86400000))]
          | none => [])
  let config := match table.clustering with
    | some cl => if cl ≠ [] then config ++ [("clusterBy", YVal.arr (cl.map YVal.str))] else config
    | none => config
  match table.labels with
  | some ls =>
    if ls ≠ [] then
      config ++ [("labels", YVal.obj (ls.map (fun kv => (kv.1, YVal.str kv.2))))]
    else config
  | none => config

/-- The dotted full reference `f"{project_id}.{dataset_id}.{table_id}"`. -/
def tableRefString (table : TableMetadata) : String :=
  table.project_id ++ "." ++ table.dataset_id ++ "." ++ table.table_id

/-- Add to a Python set of `DependencyTarget`, embedded as an
insertion-ordered duplicate-free list (equality is on the triple). -/
def addDep (deps : List DependencyTarget) (d : DependencyTarget) :
    List DependencyTarget :=
  if d ∈ deps then deps else deps ++ [d]

/-- `DataformActionsGenerator._collect_dependencies`: union the
referenced-table triples of all jobs, skipping any reference whose dotted
string equals the table's own dotted reference. -/
def collect_dependencies (table : TableMetadata) (jobs : List JobMetadata) :
    List DependencyTarget :=
  jobs.foldl (fun deps job =>
    job.referenced_tables.foldl (fun deps ref =>
      let ref_str := ref.projectId ++ "." ++ ref.datasetId ++ "." ++ ref.tableId
      if ref_str = tableRefString table then deps
      else addDep deps ⟨ref.projectId, ref.datasetId, ref.tableId⟩) deps) []

/-- `DataformActionsGenerator._create_declaration`. -/
def create_declaration (dependency : DependencyTarget) : ActionDefinition :=
  { type := "declaration"
    name := dependency.name
    schema := dependency.dataset
    project := dependency.project }

/-- `DataformActionsGenerator.generate_action` (the filesystem side
effect `_ensure_sql_file` creates an empty placeholder file and does not
affect the returned definition). -/
def generate_action (table : TableMetadata) (jobs : List JobMetadata) :
    ActionDefinition :=
  { type := if table.table_type = "VIEW" then "view" else "table"
    name := table.table_id
    schema := table.dataset_id
    project := table.project_id
    filename := some (table.dataset_id ++ "/" ++ table.table_id ++ ".sql")
    description := some ("Auto-generated from " ++ tableRefString table)
    disabled := some false
    columns := table.schema.columns.map convert_column_metadata
    dependency_targets := collect_dependencies table jobs
    config := generate_config_from_table table }

/-- The `(project_id, dataset_id, table_id)` key of a table. -/
def tableTriple (table : TableMetadata) : String × String × String :=
  (table.project_id, table.dataset_id, table.table_id)

/-- The destination key of `generate_actions_yaml`'s `jobs_by_table`:
`(projectId, datasetId, tableId)`. -/
def destTriple (job : JobMetadata) : Option (String × String × String) :=
  job.destination_table.map (fun d => (d.projectId, d.datasetId, d.tableId))

/-- `generate_actions_yaml`'s `jobs_by_table` dict. -/
def jobsByDestTriple (jobs : List JobMetadata) :
    List ((String × String × String) × List JobMetadata) :=
  jobs.foldl (fun groups j =>
    match destTriple j with
    | none => groups
    | some k => addToGroups groups k j) []

/-- `jobs_by_table.get(table_key, [])`. -/
def lookupGroup {κ : Type} [DecidableEq κ]
    (groups : List (κ × List JobMetadata)) (k : κ) : List JobMetadata :=
  match groups.find? (fun p => decide (p.1 = k)) with
  | some p => p.2
  | none => []

/-- The numeric first component of the sort key of
`actions.sort(key=lambda x: (x.type != 'declaration', ...))`: the bool
`x.type != 'declaration'` compared as `False < True`. -/
def actionKeyN (x : ActionDefinition) : Nat :=
  if x.type = "declaration" then 0 else 1

/-- The sort key comparison of
`actions.sort(key=lambda x: (x.type != 'declaration', x.project, x.schema, x.name))`:
lexicographic on the 4-tuple, with `False < True` on the leading bool, so
declarations order before non-declarations. -/
def actionSortLe (x y : ActionDefinition) : Bool :=
  if actionKeyN x < actionKeyN y then true
  else if actionKeyN y < actionKeyN x then false
  else if strLt x.project y.project then true else if strLt y.project x.project then false
  else if strLt x.schema y.schema then true else if strLt y.schema x.schema then false
  else strLe x.name y.name

/-- The sorted action list built by
`DataformActionsGenerator.generate_actions_yaml` just before rendering:
one action per input table (with that table's destination jobs), then one
declaration per accumulated dependency triple not among the known table
triples, sorted by the key above.  The declaration pass iterates a Python
set, whose order is unspecified; the insertion-ordered embedding below is
one admissible order, and the final sort is insensitive to it except
among actions with fully equal sort keys. -/
def finalActions (tables : List TableMetadata) (jobs : List JobMetadata) :
    List ActionDefinition :=
  let known_tables := tables.map tableTriple
  let jobs_by_table := jobsByDestTriple jobs
  let actions := tables.map (fun t => generate_action t (lookupGroup jobs_by_table (tableTriple t)))
  let all_dependencies := actions.foldl (fun acc a => a.dependency_targets.foldl addDep acc) []
  let decls := (all_dependencies.filter
      (fun d => decide ((d.project, d.dataset, d.name) ∉ known_tables))).map create_declaration
  stableSort actionSortLe (actions ++ decls)

/-- `DataformActionsGenerator.generate_actions_yaml`: the value of the
`actions` key of the returned document — the sorted actions, rendered by
`to_dict` (whose `ValueError` propagates). -/
def generate_actions_yaml (tables : List TableMetadata) (jobs : List JobMetadata) :
    Except String (List (String × List (String × YVal))) :=
  (finalActions tables jobs).mapM ActionDefinition.to_dict

/-! ### Claim C1 — final ordering of `generate_actions_yaml` -/

/-- The `orders` table of the spec's end-to-end scenario. -/
def ordersTable : TableMetadata :=
  { project_id := "proj"
    dataset_id := "ds"
    table_id := "orders"
    table_type := "TABLE"
    schema := {} }

/-- The job writing `orders` from `customers` in the spec's scenario. -/
def ordersJob : JobMetadata :=
  { job_id := "job1"
    created_time := 1
    job_type := "query"
    destination_table := some ⟨"proj", "ds", "orders"⟩
    query := some "SELECT * FROM proj.ds.customers"
    referenced_tables := [⟨"proj", "ds", "customers"⟩] }

/-! ### Claim C4 — column conversion and nested fields -/

/-- A RECORD column `r` with one nested field `x`. -/
def nestedColumn : ColumnMetadata :=
  .mk "r" "RECORD" none "NULLABLE" [] [.mk "x" "STRING" none "NULLABLE" [] [] []] []

/-- A table whose only column is the RECORD column `r`. -/
def nestedTable : TableMetadata :=
  { project_id := "p"
    dataset_id := "d"
    table_id := "t"
    table_type := "TABLE"
    schema := { columns := [nestedColumn] } }

/-! ### Claim C5 — fatal rendering and construction errors -/

/-- A `declaration`-typed action constructed with a filename, a column
and a dependency target — Python's `ActionDefinition` dataclass accepts
this without any check. -/
def declWithEverything : ActionDefinition :=
  { type := "declaration"
    name := "n"
    schema := "d"
    project := "p"
    filename := some "d/n.sql"
    columns := [{ path := ["c"] }]
    dependency_targets := [⟨"p", "d", "x"⟩] }

/-- A non-declaration action without a filename. -/
def tableNoFile : ActionDefinition :=
  { type := "table"
    name := "t"
    schema := "d"
    project := "p" }

/-! ### Claim C8 — no self-dependency -/

/-- The dotted reference string of a dependency target, as compared by
`_collect_dependencies`. -/
def depRefString (d : DependencyTarget) : String :=
  d.project ++ "." ++ d.dataset ++ "." ++ d.name

/-! ### Claim C9 — partition expiration conversion -/

/-- A table partitioned on `dt` with `expirationMs` 259200000. -/
def partitionedTable : TableMetadata :=
  { project_id := "p"
    dataset_id := "d"
    table_id := "t"
    table_type := "TABLE"
    schema := {}
    partitioning := some { field := some "dt", expirationMs := some 259200000 } }

/-! ### Claim C6 — closure completeness and uniqueness -/

/-- The identity triple of a rendered action. -/
def actionTriple (a : ActionDefinition) : String × String × String :=
  (a.project, a.schema, a.name)

/-- The identity triple of a dependency target. -/
def depTriple (d : DependencyTarget) : String × String × String :=
  (d.project, d.dataset, d.name)

/-- The per-table actions of `generate_actions_yaml`'s first pass. -/
def actsOf (tables : List TableMetadata) (jobs : List JobMetadata) :
    List ActionDefinition :=
  tables.map (fun t => generate_action t (lookupGroup (jobsByDestTriple jobs) (tableTriple t)))

/-- The accumulated `all_dependencies` set of `generate_actions_yaml`. -/
def allDepsOf (tables : List TableMetadata) (jobs : List JobMetadata) :
    List DependencyTarget :=
  (actsOf tables jobs).foldl (fun acc a => a.dependency_targets.foldl addDep acc) []

/-- The injected declaration stubs of `generate_actions_yaml`'s second
pass. -/
def declsOf (tables : List TableMetadata) (jobs : List JobMetadata) :
    List ActionDefinition :=
  ((allDepsOf tables jobs).filter
      (fun d => decide ((d.project, d.dataset, d.name) ∉ tables.map tableTriple))).map
    create_declaration

/-- The action generated for the `orders` table in the scenario. -/
def ordersAction : ActionDefinition :=
  generate_action ordersTable (lookupGroup (jobsByDestTriple [ordersJob]) (tableTriple ordersTable))

/-! ### Claim C2 — canonical query selection -/

/-- The older job for destination `d.t`, with the canonical query. -/
def dupJobOld : JobMetadata :=
  { job_id := "jold"
    created_time := 1
    job_type := "query"
    destination_table := some ⟨"p", "d", "t"⟩
    query := some "abcdefghij" }

/-- A newer job for the same destination whose query text differs only by
a trailing space, so it normalises identically and is classified a
duplicate. -/
def dupJobNew : JobMetadata :=
  { job_id := "jnew"
    created_time := 2
    job_type := "query"
    destination_table := some ⟨"p", "d", "t"⟩
    query := some "abcdefghij " }

/-! ### Claim C10 — SQL grouping ignores the destination project -/

/-- Rewrite only the `projectId` of a job's destination table. -/
def mapDestProject (f : TableRefDict → String) (j : JobMetadata) : JobMetadata :=
  { j with destination_table := j.destination_table.map (fun d => { d with projectId := f d }) }

/-- A job writing `d.t` in project `p1`. -/
def crossJobA : JobMetadata :=
  { job_id := "a"
    created_time := 1
    job_type := "query"
    destination_table := some ⟨"p1", "d", "t"⟩
    query := some "abcdefghij" }

/-- A job writing `d.t` in a different project `p2`. -/
def crossJobB : JobMetadata :=
  { job_id := "b"
    created_time := 2
    job_type := "query"
    destination_table := some ⟨"p2", "d", "t"⟩ }

/-- A job for `orders` that references its own destination table as well
as `customers`. -/
def selfRefJob : JobMetadata :=
  { job_id := "self"
    created_time := 3
    job_type := "query"
    destination_table := some ⟨"proj", "ds", "orders"⟩
    query := some "SELECT * FROM proj.ds.orders JOIN proj.ds.customers"
    referenced_tables := [⟨"proj", "ds", "orders"⟩, ⟨"proj", "ds", "customers"⟩] }

/-! ### Claim C7 — similarity bounds, symmetry, self-similarity

Part one: the best block returned by each phase of
`find_longest_match` stays inside the requested ranges, giving the
`[0, 1]` bounds of `ratio()`. -/

/-- The best block `(besti, bestj, bestsize)` lies inside
`[alo, ahi) × [blo, bhi)`, and an empty best block is the initial
`(alo, blo, 0)`. -/
def GoodBest (alo ahi blo bhi : Nat) (best : Nat × Nat × Nat) : Prop :=
  alo ≤ best.1 ∧ blo ≤ best.2.1 ∧
  (best.2.2 = 0 → best.1 = alo ∧ best.2.1 = blo) ∧
  (1 ≤ best.2.2 → best.1 + best.2.2 ≤ ahi ∧ best.2.1 + best.2.2 ≤ bhi)

/-! ### Self-comparison: the dict phase stays on the diagonal

For `SequenceMatcher(None, a, a)` restricted to an aligned window
`[lo, hi) × [lo, hi)`, every `j2len` entry records a genuine matching run
of non-popular characters, so the best block found by the dict phase is
the longest diagonal run, and the extension loops then grow it to the
whole window. -/

/-- Length of the maximal run of consecutive non-popular positions of `a`
ending at `i` and contained in `[lo, i]`: the value `newj2len[i]` takes on
the diagonal of the dict phase of the self-comparison. -/
def dcsl (a : List Char) (lo : Nat) : Nat → Nat
  | 0 => if 0 < lo ∨ popularChar a (a.getD 0 ' ') = true then 0 else 1
  | i + 1 =>
    if i + 1 < lo ∨ popularChar a (a.getD (i + 1) ' ') = true then 0
    else dcsl a lo i + 1

/-- The best size reached by the dict phase of the self-comparison after
processing rows `[lo, i)`: the maximum diagonal run seen so far. -/
def maxDiag (a : List Char) (lo : Nat) : Nat → Nat
  | 0 => 0
  | i + 1 => if i < lo then 0 else max (maxDiag a lo i) (dcsl a lo i)

/-- A matching run of length `k` ending at position `i` on the `a` side
and `j` on the `b = a` side, all of whose `b`-side characters are
non-popular, staying inside `[lo, ∞)` on both sides: the invariant
carried by every `j2len` entry of the self-comparison. -/
def RunA (a : List Char) (lo i j k : Nat) : Prop :=
  (∀ u < k, a.getD (i - u) ' ' = a.getD (j - u) ' ' ∧
    ¬ popularChar a (a.getD (j - u) ' ') = true) ∧
  k + lo ≤ j + 1 ∧ k + lo ≤ i + 1

/-- The state invariant of one self-comparison row: every dict entry is a
genuine non-popular matching run, and the best block is a diagonal block
inside the window. -/
def SelfInv (a : List Char) (lo i : Nat)
    (st : List (Nat × Nat) × (Nat × Nat × Nat)) : Prop :=
  (∀ p ∈ st.1, lo ≤ p.1 ∧ 1 ≤ p.2 ∧ RunA a lo i p.1 p.2) ∧
  st.2.1 = st.2.2.1 ∧
  (st.2.2.2 = 0 → st.2.1 = lo) ∧
  (1 ≤ st.2.2.2 → lo ≤ st.2.1 ∧ st.2.1 + st.2.2.2 ≤ i + 1)

/-- The step function of the inner row fold of `flmRow`. -/
def rowStepF (j2len : List (Nat × Nat)) (i : Nat)
    (st2 : List (Nat × Nat) × (Nat × Nat × Nat)) (j : Nat) :
    List (Nat × Nat) × (Nat × Nat × Nat) :=
  let k := (if j = 0 then 0 else dget j2len (j - 1)) + 1
  (st2.1 ++ [(j, k)],
    if st2.2.2.2 < k then (i + 1 - k, j + 1 - k, k) else st2.2)

/-! ### Order lemmas for the embedded string comparison and stable sort -/

/-- Characters with equal code points are equal. -/
theorem char_toNat_inj {c d : Char} (h : c.toNat = d.toNat) : c = d := by
  have h2 := congrArg Char.ofNat h
  rwa [Char.ofNat_toNat, Char.ofNat_toNat] at h2

/-- `charListLt` is asymmetric. -/
theorem charListLt_asymm : ∀ {as bs : List Char},
    charListLt as bs = true → charListLt bs as = false := by
  intro as
  induction as with
  | nil =>
    intro bs h
    cases bs with
    | nil => simp [charListLt] at h
    | cons b bs => simp [charListLt]
  | cons a as ih =>
    intro bs h
    cases bs with
    | nil => simp [charListLt] at h
    | cons b bs =>
      simp only [charListLt] at h ⊢
      rcases Nat.lt_trichotomy a.toNat b.toNat with hab | hab | hab
      · simp [hab, Nat.lt_asymm hab]
      · simp only [hab, lt_irrefl, if_false] at h ⊢
        exact ih h
      · simp [hab, Nat.lt_asymm hab] at h

/-- If neither list is `charListLt`-below the other they are equal. -/
theorem charListLt_conn : ∀ {as bs : List Char},
    charListLt as bs = false → charListLt bs as = false → as = bs := by
  intro as
  induction as with
  | nil =>
    intro bs h1 _
    cases bs with
    | nil => rfl
    | cons b bs => simp [charListLt] at h1
  | cons a as ih =>
    intro bs h1 h2
    cases bs with
    | nil => simp [charListLt] at h2
    | cons b bs =>
      simp only [charListLt] at h1 h2
      rcases Nat.lt_trichotomy a.toNat b.toNat with hab | hab | hab
      · simp [hab] at h1
      · simp only [hab, lt_irrefl, if_false] at h1 h2
        rw [char_toNat_inj hab, ih h1 h2]
      · simp [hab] at h2

/-- `charListLt` is transitive. -/
theorem charListLt_trans : ∀ {as bs cs : List Char},
    charListLt as bs = true → charListLt bs cs = true → charListLt as cs = true := by
  intro as
  induction as with
  | nil =>
    intro bs cs h1 h2
    cases bs with
    | nil => simp [charListLt] at h1
    | cons b bs =>
      cases cs with
      | nil => simp [charListLt] at h2
      | cons c cs => simp [charListLt]
  | cons a as ih =>
    intro bs cs h1 h2
    cases bs with
    | nil => simp [charListLt] at h1
    | cons b bs =>
      cases cs with
      | nil => simp [charListLt] at h2
      | cons c cs =>
        simp only [charListLt] at h1 h2 ⊢
        rcases Nat.lt_trichotomy a.toNat b.toNat with hab | hab | hab
        · rcases Nat.lt_trichotomy b.toNat c.toNat with hbc | hbc | hbc
          · simp [Nat.lt_trans hab hbc]
          · simp [hbc ▸ hab]
          · simp [hbc, Nat.lt_asymm hbc] at h2
        · rcases Nat.lt_trichotomy b.toNat c.toNat with hbc | hbc | hbc
          · simp [hab ▸ hbc]
          · simp only [hab, hbc, lt_irrefl, if_false] at h1 h2 ⊢
            exact ih h1 h2
          · simp [hbc, Nat.lt_asymm hbc] at h2
        · simp [hab, Nat.lt_asymm hab] at h1

/-- If neither string is strictly below the other they are equal. -/
theorem strLt_conn {a b : String} (h1 : strLt a b = false)
    (h2 : strLt b a = false) : a = b :=
  String.ext (charListLt_conn h1 h2)

/-- `strLe` is reflexive-total: one of `strLe a b`, `strLe b a` holds. -/
theorem strLe_total (a b : String) : strLe a b = true ∨ strLe b a = true := by
  simp only [strLe, Bool.not_eq_true']
  by_cases h : charListLt b.data a.data = true
  · right
    exact charListLt_asymm h
  · left
    exact Bool.not_eq_true _ ▸ (Bool.eq_false_iff.mpr h)

/-- `insertOrdered` permutes only. -/
theorem insertOrdered_perm {α : Type} (le : α → α → Bool) (x : α) :
    ∀ l : List α, (insertOrdered le x l).Perm (x :: l) := by
  intro l
  induction l with
  | nil => simp [insertOrdered]
  | cons y ys ih =>
    simp only [insertOrdered]
    by_cases h : le x y = true
    · simp [h]
    · simp only [h, if_false]
      exact (ih.cons y).trans (List.Perm.swap x y ys)

/-- `stableSort` permutes its input. -/
theorem stableSort_perm {α : Type} (le : α → α → Bool) :
    ∀ l : List α, (stableSort le l).Perm l := by
  intro l
  induction l with
  | nil => simp [stableSort]
  | cons x xs ih =>
    exact (insertOrdered_perm le x (stableSort le xs)).trans (ih.cons x)

/-- Inserting into a `le`-sorted list keeps it sorted, given transitivity
and totality of `le`. -/
theorem insertOrdered_pairwise {α : Type} {le : α → α → Bool}
    (htrans : ∀ a b c, le a b = true → le b c = true → le a c = true)
    (htotal : ∀ a b, le a b = true ∨ le b a = true) (x : α) :
    ∀ l : List α, List.Pairwise (fun a b => le a b = true) l →
      List.Pairwise (fun a b => le a b = true) (insertOrdered le x l) := by
  intro l
  induction l with
  | nil => intro _; simp [insertOrdered]
  | cons y ys ih =>
    intro hl
    rw [List.pairwise_cons] at hl
    simp only [insertOrdered]
    by_cases h : le x y = true
    · rw [if_pos h, List.pairwise_cons]
      refine ⟨?_, List.pairwise_cons.mpr hl⟩
      intro z hz
      rcases List.mem_cons.mp hz with rfl | hz2
      · exact h
      · exact htrans x y z h (hl.1 z hz2)
    · rw [if_neg h, List.pairwise_cons]
      refine ⟨?_, ih hl.2⟩
      intro z hz
      rcases List.mem_cons.mp (((insertOrdered_perm le x ys).mem_iff).mp hz) with rfl | hz2
      · rcases htotal z y with h' | h'
        · exact absurd h' h
        · exact h'
      · exact hl.1 z hz2

/-- `stableSort` sorts, given transitivity and totality of `le`. -/
theorem stableSort_pairwise {α : Type} {le : α → α → Bool}
    (htrans : ∀ a b c, le a b = true → le b c = true → le a c = true)
    (htotal : ∀ a b, le a b = true ∨ le b a = true) :
    ∀ l : List α, List.Pairwise (fun a b => le a b = true) (stableSort le l) := by
  intro l
  induction l with
  | nil => simp [stableSort]
  | cons x xs ih => exact insertOrdered_pairwise htrans htotal x _ ih

/-- `strLt` is transitive. -/
theorem strLt_trans {a b c : String} (h1 : strLt a b = true)
    (h2 : strLt b c = true) : strLt a c = true :=
  charListLt_trans h1 h2

/-- `strLt` is asymmetric. -/
theorem strLt_asymm {a b : String} (h : strLt a b = true) : strLt b a = false :=
  charListLt_asymm h

/-- `strLt` is irreflexive. -/
theorem strLt_irrefl (a : String) : strLt a a = false := by
  by_cases h : strLt a a = true
  · exact strLt_asymm h
  · exact Bool.eq_false_iff.mpr h

/-- `strLe` out of `strLt` falsity. -/
theorem strLe_of_not_strLt {a b : String} (h : strLt b a = false) :
    strLe a b = true := by
  simp [strLe, strLt] at h ⊢
  exact h

/-- `strLe` versus `strLt` of the swap. -/
theorem strLt_of_not_strLe {a b : String} (h : strLe a b = false) :
    strLt b a = true := by
  simpa [strLe, strLt] using h

/-- `strLe` is transitive. -/
theorem strLe_trans {a b c : String} (h1 : strLe a b = true)
    (h2 : strLe b c = true) : strLe a c = true := by
  simp only [strLe, Bool.not_eq_true'] at h1 h2 ⊢
  by_cases h : charListLt c.data a.data = true
  · by_cases hab : charListLt a.data b.data = true
    · have := charListLt_trans h hab
      rw [this] at h2
      exact absurd h2 (by simp)
    · have hab' := charListLt_conn (Bool.eq_false_iff.mpr hab) h1
      have : a = b := String.ext hab'
      subst this
      rw [h] at h2
      exact absurd h2 (by simp)
  · exact Bool.eq_false_iff.mpr h

/-- Characterisation of `actionSortLe` as a lexicographic comparison. -/
theorem actionSortLe_eq_true_iff (x y : ActionDefinition) :
    actionSortLe x y = true ↔
      actionKeyN x < actionKeyN y ∨ (actionKeyN x = actionKeyN y ∧
        (strLt x.project y.project = true ∨ (x.project = y.project ∧
          (strLt x.schema y.schema = true ∨ (x.schema = y.schema ∧
            strLe x.name y.name = true))))) := by
  unfold actionSortLe
  split_ifs with hn1 hn2 hp1 hp2 hs1 hs2
  · exact iff_of_true rfl (Or.inl hn1)
  · refine iff_of_false (by simp) ?_
    rintro (h | ⟨h, -⟩) <;> omega
  · exact iff_of_true rfl (Or.inr ⟨by omega, Or.inl hp1⟩)
  · refine iff_of_false (by simp) ?_
    rintro (h | ⟨-, hp | ⟨hp, -⟩⟩)
    · omega
    · rw [strLt_asymm hp2] at hp
      exact absurd hp (by simp)
    · rw [hp, strLt_irrefl] at hp2
      exact absurd hp2 (by simp)
  · refine iff_of_true rfl (Or.inr ⟨by omega, Or.inr ⟨?_, Or.inl hs1⟩⟩)
    exact strLt_conn (Bool.eq_false_iff.mpr hp1) (Bool.eq_false_iff.mpr hp2)
  · refine iff_of_false (by simp) ?_
    rintro (h | ⟨-, hp | ⟨-, hs | ⟨hs, -⟩⟩⟩)
    · omega
    · exact absurd hp (by simp [Bool.eq_false_iff.mpr hp1])
    · rw [strLt_asymm hs2] at hs
      exact absurd hs (by simp)
    · rw [hs, strLt_irrefl] at hs2
      exact absurd hs2 (by simp)
  · constructor
    · intro h
      refine Or.inr ⟨by omega, Or.inr ⟨?_, Or.inr ⟨?_, h⟩⟩⟩
      · exact strLt_conn (Bool.eq_false_iff.mpr hp1) (Bool.eq_false_iff.mpr hp2)
      · exact strLt_conn (Bool.eq_false_iff.mpr hs1) (Bool.eq_false_iff.mpr hs2)
    · rintro (h | ⟨-, hp | ⟨-, hs | ⟨-, h⟩⟩⟩)
      · omega
      · exact absurd hp (by simp [Bool.eq_false_iff.mpr hp1])
      · exact absurd hs (by simp [Bool.eq_false_iff.mpr hs1])
      · exact h

/-- `actionSortLe` is transitive. -/
theorem actionSortLe_trans (x y z : ActionDefinition)
    (h1 : actionSortLe x y = true) (h2 : actionSortLe y z = true) :
    actionSortLe x z = true := by
  rw [actionSortLe_eq_true_iff] at h1 h2 ⊢
  rcases h1 with h1 | ⟨hn1, h1⟩
  · rcases h2 with h2 | ⟨hn2, -⟩
    · exact Or.inl (h1.trans h2)
    · exact Or.inl (hn2 ▸ h1)
  · rcases h2 with h2 | ⟨hn2, h2⟩
    · exact Or.inl (hn1 ▸ h2)
    · refine Or.inr ⟨hn1.trans hn2, ?_⟩
      rcases h1 with hp1 | ⟨hp1, h1⟩
      · rcases h2 with hp2 | ⟨hp2, -⟩
        · exact Or.inl (strLt_trans hp1 hp2)
        · exact Or.inl (hp2 ▸ hp1)
      · rcases h2 with hp2 | ⟨hp2, h2⟩
        · exact Or.inl (hp1 ▸ hp2)
        · refine Or.inr ⟨hp1.trans hp2, ?_⟩
          rcases h1 with hs1 | ⟨hs1, h1⟩
          · rcases h2 with hs2 | ⟨hs2, -⟩
            · exact Or.inl (strLt_trans hs1 hs2)
            · exact Or.inl (hs2 ▸ hs1)
          · rcases h2 with hs2 | ⟨hs2, h2⟩
            · exact Or.inl (hs1 ▸ hs2)
            · exact Or.inr ⟨hs1.trans hs2, strLe_trans h1 h2⟩

/-- `actionSortLe` is total. -/
theorem actionSortLe_total (x y : ActionDefinition) :
    actionSortLe x y = true ∨ actionSortLe y x = true := by
  rw [actionSortLe_eq_true_iff, actionSortLe_eq_true_iff]
  rcases Nat.lt_trichotomy (actionKeyN x) (actionKeyN y) with hn | hn | hn
  · exact Or.inl (Or.inl hn)
  · by_cases hp1 : strLt x.project y.project = true
    · exact Or.inl (Or.inr ⟨hn, Or.inl hp1⟩)
    · by_cases hp2 : strLt y.project x.project = true
      · exact Or.inr (Or.inr ⟨hn.symm, Or.inl hp2⟩)
      · have hp : x.project = y.project :=
          strLt_conn (Bool.eq_false_iff.mpr hp1) (Bool.eq_false_iff.mpr hp2)
        by_cases hs1 : strLt x.schema y.schema = true
        · exact Or.inl (Or.inr ⟨hn, Or.inr ⟨hp, Or.inl hs1⟩⟩)
        · by_cases hs2 : strLt y.schema x.schema = true
          · exact Or.inr (Or.inr ⟨hn.symm, Or.inr ⟨hp.symm, Or.inl hs2⟩⟩)
          · have hs : x.schema = y.schema :=
              strLt_conn (Bool.eq_false_iff.mpr hs1) (Bool.eq_false_iff.mpr hs2)
            rcases strLe_total x.name y.name with h | h
            · exact Or.inl (Or.inr ⟨hn, Or.inr ⟨hp, Or.inr ⟨hs, h⟩⟩⟩)
            · exact Or.inr (Or.inr ⟨hn.symm, Or.inr ⟨hp.symm, Or.inr ⟨hs.symm, h⟩⟩⟩)
  · exact Or.inr (Or.inl hn)

/-- Claim C1, counterexample: on the spec's own scenario the final action
list is `[declaration customers, table orders]` — the declaration sorts
BEFORE the non-declaration, because the sort key `x.type != 'declaration'`
is `False` (= 0) for declarations and `False < True`.  This falsifies
"every declaration action sorts after every non-declaration action". -/
theorem C1_counterexample :
    ((finalActions [ordersTable] [ordersJob]).map (fun a => (a.type, a.name)))
      = [("declaration", "customers"), ("table", "orders")] := by decide

/-- Claim C1, amended: the final action list is totally and
deterministically ordered by the lexicographic key
`(x.type != 'declaration', project, dataset, name)` — so declarations
sort BEFORE all non-declarations (second conjunct), and within each of
the two groups actions are ascending by `(project, dataset, name)`. -/
theorem C1_theorem (tables : List TableMetadata) (jobs : List JobMetadata) :
    List.Pairwise (fun x y => actionSortLe x y = true) (finalActions tables jobs) ∧
    List.Pairwise (fun x y => x.type = "declaration" ∨ y.type ≠ "declaration")
      (finalActions tables jobs) := by
  have hsorted : List.Pairwise (fun x y => actionSortLe x y = true)
      (finalActions tables jobs) := by
    unfold finalActions
    exact stableSort_pairwise actionSortLe_trans actionSortLe_total _
  refine ⟨hsorted, hsorted.imp ?_⟩
  intro a b hab
  by_cases ha : a.type = "declaration"
  · exact Or.inl ha
  · right
    intro hb
    rw [actionSortLe_eq_true_iff] at hab
    have hka : actionKeyN a = 1 := by simp [actionKeyN, ha]
    have hkb : actionKeyN b = 0 := by simp [actionKeyN, hb]
    rcases hab with h | ⟨h, -⟩ <;> omega

/-! ### Claim C3 — empty metadata input -/

/-- Claim C3, counterexample: on entirely empty metadata the generator
does not refuse; it returns the empty actions document
(`{'actions': []}`), successfully. -/
theorem C3_counterexample :
    generate_actions_yaml [] [] = Except.ok [] := rfl

/-- Claim C3, amended: with no tables the generator emits the empty
actions document (no error path is reached), whatever the job list; in
particular entirely empty metadata yields `{'actions': []}` rather than
a refusal, and no caller in `migrate_location` checks for emptiness. -/
theorem C3_theorem (jobs : List JobMetadata) :
    generate_actions_yaml [] jobs = Except.ok [] := rfl

/-- Claim C4, counterexample: for a table with a RECORD column `r`
containing a nested field `x`, the generated column list has exactly the
one entry with path `["r"]`: the nested field `x` yields NO flattened
entry (no `["r", "x"]` path), falsifying "every nested field of a record
column yields its own flattened entry". -/
theorem C4_counterexample :
    ((generate_action nestedTable []).columns.map ColumnConfig.path) = [["r"]] ∧
    ¬ ∃ c ∈ (generate_action nestedTable []).columns, c.path = ["r", "x"] := by
  constructor
  · decide
  · decide

/-- Claim C4, amended: the builder maps exactly the top-level columns
one-to-one to `ColumnConfig` entries; each entry's path is the column's
own `name` split on `.`, and it carries that column's own description and
tags; the nested `fields` of a record column are ignored entirely (they
produce no entries and do not influence the produced entry). -/
theorem C4_theorem (table : TableMetadata) (jobs : List JobMetadata) :
    (generate_action table jobs).columns
        = table.schema.columns.map convert_column_metadata ∧
    (∀ col : ColumnMetadata,
      (convert_column_metadata col).path = parse_column_path col.name ∧
      (convert_column_metadata col).description = col.description ∧
      (convert_column_metadata col).tags = col.tags ∧
      (convert_column_metadata col).bigquery_policy_tags = col.policy_tags ∧
      ∀ fs : List ColumnMetadata,
        convert_column_metadata
            (.mk col.name col.field_type col.description col.mode col.policy_tags fs col.tags)
          = convert_column_metadata col) := by
  refine ⟨rfl, ?_⟩
  intro col
  refine ⟨rfl, rfl, rfl, rfl, ?_⟩
  intro fs
  cases col
  rfl

/-- Claim C5, counterexample: constructing a declaration carrying a
filename, columns and dependency targets is not an error, and rendering
it succeeds: `to_dict` silently skips the filename but emits the columns
and dependency targets.  This falsifies "constructing a declaration
action that carries any dependency targets, columns, or a file path is a
fatal construction-time error". -/
theorem C5_counterexample :
    (ActionDefinition.to_dict declWithEverything).isOk = true ∧
    (match ActionDefinition.to_dict declWithEverything with
      | .ok p => p.2.map Prod.fst
      | .error _ => [])
      = ["name", "dataset", "project", "columns", "dependencyTargets"] := by
  constructor
  · decide
  · decide

/-- Shape of `to_dict` on a declaration: always `ok`, with the filename
key skipped unconditionally. -/
theorem to_dict_decl_eq (a : ActionDefinition) (h : a.type = "declaration") :
    a.to_dict = Except.ok (a.type,
      updateAll ([("name", YVal.str a.name), ("dataset", YVal.str a.schema),
        ("project", YVal.str a.project)]
        ++ (match a.description with
            | some s => if s ≠ "" then [("description", YVal.str s)] else []
            | none => [])
        ++ (if a.columns ≠ [] then
              [("columns", YVal.arr
                ((stableSort (fun x y => pathLe x.path y.path) a.columns).map ColumnConfig.to_dict))]
            else [])
        ++ (if a.dependency_targets ≠ [] then
              [("dependencyTargets", YVal.arr
                ((stableSort depLe a.dependency_targets).map DependencyTarget.to_dict))]
            else [])) a.config) := by
  simp only [ActionDefinition.to_dict]
  rw [if_neg (not_not_intro h)]

/-- Claim C5, amended: rendering a non-declaration action with a falsy
file path (Python `None` or `""`) raises `ValueError` — that half of the
claim holds.  But a declaration is constructible with any of filename,
columns or dependency targets, and `to_dict` renders it without error:
the filename key is merely omitted (when `config` does not supply one)
while columns and dependency targets are rendered normally. -/
theorem C5_theorem (a : ActionDefinition) :
    ((a.type ≠ "declaration" ∧ optStrTruthy a.filename = false) →
      ∃ e, a.to_dict = Except.error e) ∧
    ((a.type = "declaration" ∧ a.config = []) →
      ∃ kvs, a.to_dict = Except.ok ("declaration", kvs) ∧
        "filename" ∉ kvs.map Prod.fst) := by
  constructor
  · rintro ⟨htype, hfile⟩
    refine ⟨"Filename is required for non-declaration action " ++ a.name, ?_⟩
    simp only [ActionDefinition.to_dict]
    rw [if_pos htype, hfile]
    rfl
  · rintro ⟨htype, hcfg⟩
    rw [to_dict_decl_eq a htype, hcfg, htype]
    simp only [updateAll, List.foldl_nil]
    refine ⟨_, rfl, ?_⟩
    intro hmem
    simp only [List.map_append, List.mem_append, List.mem_map] at hmem
    rcases hmem with ((h | h) | h) | h
    · rcases h with ⟨p, hp, hfst⟩
      simp only [List.mem_cons, List.mem_singleton, List.not_mem_nil] at hp
      rcases hp with rfl | rfl | rfl | hfalse
      · simp at hfst
      · simp at hfst
      · simp at hfst
      · exact hfalse
    · rcases h with ⟨p, hp, hfst⟩
      rcases hdesc : a.description with _ | s
      · rw [hdesc] at hp
        simp at hp
      · rw [hdesc] at hp
        by_cases hs : s = ""
        · simp [hs] at hp
        · simp [hs] at hp
          rw [hp] at hfst
          simp at hfst
    · rcases h with ⟨p, hp, hfst⟩
      by_cases hc : a.columns = []
      · simp [hc] at hp
      · simp [hc] at hp
        rw [hp] at hfst
        simp at hfst
    · rcases h with ⟨p, hp, hfst⟩
      by_cases hd : a.dependency_targets = []
      · simp [hd] at hp
      · simp [hd] at hp
        rw [hp] at hfst
        simp at hfst

/-- Witness for C5: the non-declaration without a filename errors; the
fully-populated declaration renders successfully without a filename key. -/
theorem C5_witness :
    (∃ e, ActionDefinition.to_dict tableNoFile = Except.error e) ∧
    (∃ kvs, ActionDefinition.to_dict declWithEverything = Except.ok ("declaration", kvs) ∧
      "filename" ∉ kvs.map Prod.fst) :=
  ⟨(C5_theorem tableNoFile).1 ⟨by decide, by decide⟩,
   (C5_theorem declWithEverything).2 ⟨rfl, rfl⟩⟩

/-- Membership through `addDep`. -/
theorem mem_addDep {deps : List DependencyTarget} {d x : DependencyTarget} :
    x ∈ addDep deps d ↔ x ∈ deps ∨ x = d := by
  unfold addDep
  by_cases h : d ∈ deps
  · rw [if_pos h]
    constructor
    · exact Or.inl
    · rintro (hx | rfl)
      · exact hx
      · exact h
  · rw [if_neg h]
    simp

/-- Inner fold of `_collect_dependencies`: every accumulated target keeps
a dotted reference different from the table's own. -/
theorem collect_inner_inv (table : TableMetadata) :
    ∀ (refs : List TableRefDict) (acc : List DependencyTarget),
      (∀ x ∈ acc, depRefString x ≠ tableRefString table) →
      ∀ x ∈ refs.foldl (fun deps ref =>
          if ref.projectId ++ "." ++ ref.datasetId ++ "." ++ ref.tableId
              = tableRefString table then deps
          else addDep deps ⟨ref.projectId, ref.datasetId, ref.tableId⟩) acc,
        depRefString x ≠ tableRefString table := by
  intro refs
  induction refs with
  | nil =>
    intro acc hacc x hx
    exact hacc x hx
  | cons r rs ih =>
    intro acc hacc x hx
    simp only [List.foldl_cons] at hx
    refine ih _ ?_ x hx
    intro y hy
    by_cases h : r.projectId ++ "." ++ r.datasetId ++ "." ++ r.tableId = tableRefString table
    · rw [if_pos h] at hy
      exact hacc y hy
    · rw [if_neg h] at hy
      rcases mem_addDep.mp hy with hy2 | rfl
      · exact hacc y hy2
      · exact h

/-- Outer fold of `_collect_dependencies`: the invariant over jobs. -/
theorem collect_outer_inv (table : TableMetadata) :
    ∀ (jobs : List JobMetadata) (acc : List DependencyTarget),
      (∀ x ∈ acc, depRefString x ≠ tableRefString table) →
      ∀ x ∈ jobs.foldl (fun deps job =>
          job.referenced_tables.foldl (fun deps ref =>
            if ref.projectId ++ "." ++ ref.datasetId ++ "." ++ ref.tableId
                = tableRefString table then deps
            else addDep deps ⟨ref.projectId, ref.datasetId, ref.tableId⟩) deps) acc,
        depRefString x ≠ tableRefString table := by
  intro jobs
  induction jobs with
  | nil =>
    intro acc hacc x hx
    exact hacc x hx
  | cons j js ih =>
    intro acc hacc x hx
    simp only [List.foldl_cons] at hx
    exact ih _ (collect_inner_inv table j.referenced_tables acc hacc) x hx

/-- Claim C8 (confirmed): the dependency set resolved for a table never
contains the table's own `(project, dataset, name)` triple, whatever the
job list — a referenced table equal to the destination is filtered out
by the dotted-string comparison. -/
theorem C8_theorem (table : TableMetadata) (jobs : List JobMetadata) :
    (⟨table.project_id, table.dataset_id, table.table_id⟩ : DependencyTarget)
      ∉ collect_dependencies table jobs := by
  intro hmem
  have h := collect_outer_inv table jobs [] (by simp)
      ⟨table.project_id, table.dataset_id, table.table_id⟩ hmem
  exact h rfl

/-- For any tail, `find?` locates the `partitionExpirationDays` entry
right after the `partitionBy` entry. -/
theorem find_ped_prefix (v : YVal) (n : Int) (rest : List (String × YVal)) :
    List.find? (fun kv => kv.1 == "partitionExpirationDays")
      (("partitionBy", v) :: ("partitionExpirationDays", YVal.int n) :: rest)
      = some ("partitionExpirationDays", YVal.int n) := rfl

/-- Claim C9 (confirmed): the partition expiration is converted from
milliseconds to whole days by integer division truncated toward zero (no
rounding up): generally the emitted value is `ms.tdiv 86400000`, which
for non-negative `ms` satisfies the floor bounds, and concretely a table
with partition field `dt` and `expirationMs` 259200000 produces
`partitionBy: dt` and `partitionExpirationDays: 3`. -/
theorem C9_theorem :
    generate_config_from_table partitionedTable
        = [("partitionBy", YVal.str "dt"), ("partitionExpirationDays", YVal.int 3)] ∧
    ∀ (table : TableMetadata) (p : PartitioningSpec) (ms : Int),
      table.partitioning = some p → p.expirationMs = some ms →
      ((generate_config_from_table table).find?
          (fun kv => kv.1 == "partitionExpirationDays")
        = some ("partitionExpirationDays", YVal.int (Int.tdiv ms 86400000)) ∧
      (0 ≤ ms → Int.tdiv ms 86400000 * 86400000 ≤ ms ∧
        ms < (Int.tdiv ms 86400000 + 1) * 86400000)) := by
  constructor
  · rfl
  · intro table p ms hpart hexp
    constructor
    · unfold generate_config_from_table
      rw [hpart]
      dsimp only
      rw [hexp]
      rcases hclu : table.clustering with _ | cl <;>
        rcases hlab : table.labels with _ | ls <;>
        dsimp only <;>
        (try split) <;> (try split) <;>
        exact find_ped_prefix _ _ _
    · intro hms
      rw [Int.tdiv_eq_ediv hms (by norm_num)]
      omega

/-- Witness for C9: the general conversion fact applied to the concrete
partitioned table. -/
theorem C9_witness :
    ((generate_config_from_table partitionedTable).find?
        (fun kv => kv.1 == "partitionExpirationDays")
      = some ("partitionExpirationDays", YVal.int (Int.tdiv 259200000 86400000))) ∧
    (Int.tdiv 259200000 86400000 * 86400000 ≤ 259200000 ∧
      (259200000 : Int) < (Int.tdiv 259200000 86400000 + 1) * 86400000) :=
  ⟨(C9_theorem.2 partitionedTable { field := some "dt", expirationMs := some 259200000 }
      259200000 rfl rfl).1,
   (C9_theorem.2 partitionedTable { field := some "dt", expirationMs := some 259200000 }
      259200000 rfl rfl).2 (by decide)⟩

/-- `finalActions` unfolded into its two passes. -/
theorem finalActions_eq (tables : List TableMetadata) (jobs : List JobMetadata) :
    finalActions tables jobs
      = stableSort actionSortLe (actsOf tables jobs ++ declsOf tables jobs) := rfl

/-- Monotonicity of the inner `addDep` fold. -/
theorem mem_foldl_addDep_mono {x : DependencyTarget} :
    ∀ (l : List DependencyTarget) (acc : List DependencyTarget),
      x ∈ acc → x ∈ l.foldl addDep acc := by
  intro l
  induction l with
  | nil => intro acc h; exact h
  | cons d ds ih =>
    intro acc h
    exact ih (addDep acc d) (mem_addDep.mpr (Or.inl h))

/-- The inner `addDep` fold contains its input list. -/
theorem mem_foldl_addDep_of_mem {x : DependencyTarget} :
    ∀ (l : List DependencyTarget) (acc : List DependencyTarget),
      x ∈ l → x ∈ l.foldl addDep acc := by
  intro l
  induction l with
  | nil => intro acc h; exact absurd h (List.not_mem_nil x)
  | cons d ds ih =>
    intro acc h
    rcases List.mem_cons.mp h with rfl | h2
    · exact mem_foldl_addDep_mono ds _ (mem_addDep.mpr (Or.inr rfl))
    · exact ih _ h2

/-- Monotonicity of the outer dependency-accumulation fold. -/
theorem mem_depsFold_mono {x : DependencyTarget} :
    ∀ (acts : List ActionDefinition) (acc : List DependencyTarget),
      x ∈ acc →
      x ∈ acts.foldl (fun acc a => a.dependency_targets.foldl addDep acc) acc := by
  intro acts
  induction acts with
  | nil => intro acc h; exact h
  | cons a as ih =>
    intro acc h
    exact ih _ (mem_foldl_addDep_mono _ _ h)

/-- Every dependency target of every action lands in the accumulated
dependency set. -/
theorem mem_depsFold_of_mem {dt : DependencyTarget} :
    ∀ (acts : List ActionDefinition) (acc : List DependencyTarget) (a : ActionDefinition),
      a ∈ acts → dt ∈ a.dependency_targets →
      dt ∈ acts.foldl (fun acc a => a.dependency_targets.foldl addDep acc) acc := by
  intro acts
  induction acts with
  | nil => intro acc a h; exact absurd h (List.not_mem_nil a)
  | cons b bs ih =>
    intro acc a ha hdt
    rcases List.mem_cons.mp ha with rfl | ha2
    · exact mem_depsFold_mono bs _ (mem_foldl_addDep_of_mem _ _ hdt)
    · exact ih _ a ha2 hdt

/-- `addDep` preserves duplicate-freedom. -/
theorem nodup_addDep {acc : List DependencyTarget} {d : DependencyTarget}
    (h : acc.Nodup) : (addDep acc d).Nodup := by
  unfold addDep
  by_cases hd : d ∈ acc
  · rwa [if_pos hd]
  · rw [if_neg hd]
    rw [List.nodup_append]
    exact ⟨h, List.nodup_singleton d, by simpa using hd⟩

/-- The inner `addDep` fold preserves duplicate-freedom. -/
theorem nodup_foldl_addDep :
    ∀ (l : List DependencyTarget) (acc : List DependencyTarget),
      acc.Nodup → (l.foldl addDep acc).Nodup := by
  intro l
  induction l with
  | nil => intro acc h; exact h
  | cons d ds ih => intro acc h; exact ih _ (nodup_addDep h)

/-- The accumulated dependency set is duplicate-free: the Python set
never holds two targets with the same triple. -/
theorem nodup_depsFold :
    ∀ (acts : List ActionDefinition) (acc : List DependencyTarget),
      acc.Nodup →
      (acts.foldl (fun acc a => a.dependency_targets.foldl addDep acc) acc).Nodup := by
  intro acts
  induction acts with
  | nil => intro acc h; exact h
  | cons a as ih => intro acc h; exact ih _ (nodup_foldl_addDep _ _ h)

/-- Counting by an injective-image key over a list whose key image is
duplicate-free: one hit when the key occurs, none otherwise. -/
theorem countP_map_eq_of_nodup {α β : Type} [DecidableEq β] (f : α → β) :
    ∀ l : List α, (l.map f).Nodup → ∀ k : β,
      l.countP (fun x => decide (f x = k)) = if k ∈ l.map f then 1 else 0 := by
  intro l
  induction l with
  | nil => intro _ k; simp
  | cons x xs ih =>
    intro h k
    rw [List.map_cons, List.nodup_cons] at h
    rw [List.countP_cons]
    by_cases hx : f x = k
    · subst hx
      rw [ih h.2 (f x)]
      rw [if_neg (by simpa using h.1), if_pos (by simp)]
      simp
    · rw [ih h.2 k]
      have hkx : ¬ k = f x := fun hkk => hx hkk.symm
      simp only [List.map_cons, List.mem_cons]
      by_cases hk : k ∈ List.map f xs
      · simp [hk, hx]
      · simp [hk, hx, hkx]

/-- `depTriple` is injective: a `DependencyTarget` is exactly its triple. -/
theorem depTriple_injective : Function.Injective depTriple := by
  intro d e h
  cases d
  cases e
  simpa [depTriple, DependencyTarget.mk.injEq, Prod.ext_iff] using h

/-- Claim C6 (confirmed): under pairwise-distinct input table triples,
every dependency target referenced by a non-declaration action of the
final graph is matched by exactly one action of the final graph — a
synthesized table/view action when the triple is a known table, else
exactly one declaration stub (never zero, never duplicated). -/
theorem C6_theorem (tables : List TableMetadata) (jobs : List JobMetadata)
    (hdistinct : (tables.map tableTriple).Nodup) :
    ∀ a ∈ finalActions tables jobs, a.type ≠ "declaration" →
    ∀ dt ∈ a.dependency_targets,
      (finalActions tables jobs).countP
          (fun x => decide (actionTriple x = depTriple dt)) = 1 := by
  intro a ha htype dt hdt
  have hperm := stableSort_perm actionSortLe (actsOf tables jobs ++ declsOf tables jobs)
  rw [finalActions_eq] at ha ⊢
  rw [List.Perm.countP_eq _ hperm]
  have hmem : a ∈ actsOf tables jobs ++ declsOf tables jobs := hperm.mem_iff.mp ha
  have hacts : a ∈ actsOf tables jobs := by
    rcases List.mem_append.mp hmem with h | h
    · exact h
    · exfalso
      rcases List.mem_map.mp h with ⟨d, -, rfl⟩
      exact htype rfl
  have hdtall : dt ∈ allDepsOf tables jobs :=
    mem_depsFold_of_mem (actsOf tables jobs) [] a hacts hdt
  rw [List.countP_append]
  have hactsCount : (actsOf tables jobs).countP
      (fun x => decide (actionTriple x = depTriple dt))
      = if depTriple dt ∈ tables.map tableTriple then 1 else 0 := by
    unfold actsOf
    rw [List.countP_map]
    have hfun : ((fun x => decide (actionTriple x = depTriple dt)) ∘
        (fun t => generate_action t (lookupGroup (jobsByDestTriple jobs) (tableTriple t))))
        = fun t => decide (tableTriple t = depTriple dt) := by
      funext t
      rfl
    rw [hfun]
    rw [countP_map_eq_of_nodup tableTriple tables hdistinct (depTriple dt)]
    by_cases hk : depTriple dt ∈ tables.map tableTriple
    · rw [if_pos hk, if_pos hk]
    · rw [if_neg hk, if_neg hk]
  have hnodupAll : (allDepsOf tables jobs).Nodup :=
    nodup_depsFold (actsOf tables jobs) [] List.nodup_nil
  have hdeclsCount : (declsOf tables jobs).countP
      (fun x => decide (actionTriple x = depTriple dt))
      = if depTriple dt ∈ tables.map tableTriple then 0 else 1 := by
    unfold declsOf
    rw [List.countP_map]
    have hfun : ((fun x => decide (actionTriple x = depTriple dt)) ∘ create_declaration)
        = fun d => decide (depTriple d = depTriple dt) := by
      funext d
      rfl
    rw [hfun]
    have hnodupF : ((allDepsOf tables jobs).filter
        (fun d => decide ((d.project, d.dataset, d.name) ∉ tables.map tableTriple))).Nodup :=
      List.Nodup.filter _ hnodupAll
    have hmapnodup : (((allDepsOf tables jobs).filter
        (fun d => decide ((d.project, d.dataset, d.name) ∉ tables.map tableTriple))).map
          depTriple).Nodup :=
      hnodupF.map depTriple_injective
    rw [countP_map_eq_of_nodup depTriple _ hmapnodup (depTriple dt)]
    by_cases hk : depTriple dt ∈ tables.map tableTriple
    · rw [if_pos hk, if_neg ?_]
      intro hin
      rcases List.mem_map.mp hin with ⟨d, hdf, hdeq⟩
      have hout := (List.mem_filter.mp hdf).2
      rw [decide_eq_true_eq] at hout
      exact hout (by rw [show (d.project, d.dataset, d.name) = depTriple d from rfl, hdeq]; exact hk)
    · rw [if_neg hk, if_pos ?_]
      refine List.mem_map.mpr ⟨dt, List.mem_filter.mpr ⟨hdtall, ?_⟩, rfl⟩
      rw [decide_eq_true_eq]
      exact hk
  rw [hactsCount, hdeclsCount]
  by_cases hk : depTriple dt ∈ tables.map tableTriple
  · rw [if_pos hk, if_pos hk]
  · rw [if_neg hk, if_neg hk]

/-- Witness for C6: in the `orders`/`customers` scenario, exactly one
action carries the `customers` triple referenced by the `orders` action. -/
theorem C6_witness :
    (finalActions [ordersTable] [ordersJob]).countP
        (fun x => decide (actionTriple x = depTriple ⟨"proj", "ds", "customers"⟩)) = 1 := by
  have hlist : finalActions [ordersTable] [ordersJob]
      = [create_declaration ⟨"proj", "ds", "customers"⟩, ordersAction] := rfl
  have hdeps : ordersAction.dependency_targets = [⟨"proj", "ds", "customers"⟩] := rfl
  refine C6_theorem [ordersTable] [ordersJob] (by decide) ordersAction ?_ (by decide)
    ⟨"proj", "ds", "customers"⟩ ?_
  · rw [hlist]
    exact List.mem_cons_of_mem _ (List.mem_cons_self _ _)
  · rw [hdeps]
    exact List.mem_cons_self _ _

/-- The two near-identical queries score a full similarity of 1. -/
theorem sim_dup :
    calculate_similarity "abcdefghij " "abcdefghij" defaultSimilarityConfig = 1 := by
  unfold calculate_similarity
  rw [show (normalise_query "abcdefghij " defaultSimilarityConfig).data
      = "abcdefghij".data from by decide]
  rw [show (normalise_query "abcdefghij" defaultSimilarityConfig).data
      = "abcdefghij".data from by decide]
  rw [if_neg (by decide)]
  unfold ratioQ
  rw [if_neg (by decide)]
  rw [show matchesTotal "abcdefghij".data "abcdefghij".data = 10 from by decide]
  rw [show ("abcdefghij".data.length : Nat) = 10 from by decide]
  norm_num

/-- Deduplication at threshold 0.9 drops the newer job: only the older
job's entry remains canonical. -/
theorem dedup_dup :
    deduplicate_queries (9/10) [dupJobOld, dupJobNew]
      = [⟨"abcdefghij", "jold", 1⟩] := by
  have hle : ((9:ℚ)/10 ≤ calculate_similarity "abcdefghij " "abcdefghij"
      defaultSimilarityConfig) := by
    rw [sim_dup]
    norm_num
  show (if (decide ((9:ℚ)/10 ≤ calculate_similarity "abcdefghij " "abcdefghij"
          defaultSimilarityConfig) || false) = true
      then [(⟨"abcdefghij", "jold", 1⟩ : UniqueQuery)]
      else [(⟨"abcdefghij", "jold", 1⟩ : UniqueQuery)] ++ [⟨"abcdefghij ", "jnew", 2⟩])
      = [⟨"abcdefghij", "jold", 1⟩]
  rw [decide_eq_true hle]
  rfl

/-- Claim C2, counterexample: with an older canonical job and a newer
near-identical job for the same destination, the emitted SQL body is the
OLDER job's query — the newer job, classified as a duplicate, never
enters `unique_queries`, so `max(created_time)` ranges only over the
canonical entries, not over all jobs.  This falsifies "the most recently
created query wins regardless of cluster membership" (and the spec's
concrete J1/J2 example). -/
theorem C2_counterexample :
    generate_sql_files (9/10) [dupJobOld, dupJobNew] = [("d/t.sql", "abcdefghij")] ∧
    dupJobOld.created_time < dupJobNew.created_time ∧
    dupJobNew.query = some "abcdefghij " ∧
    "abcdefghij" ≠ "abcdefghij " := by
  refine ⟨?_, by decide, rfl, by decide⟩
  unfold generate_sql_files
  rw [show jobsByTable [dupJobOld, dupJobNew]
      = [(("d", "t"), [dupJobOld, dupJobNew])] from by decide]
  simp only [List.flatMap_cons, List.flatMap_nil, List.append_nil]
  rw [dedup_dup]
  rfl

/-- `queryText` succeeds exactly on the raw query text. -/
theorem queryText_eq (j : JobMetadata) {q : String} (h : queryText j = some q) :
    j.query = some q := by
  unfold queryText at h
  rcases hjq : j.query with _ | q0 <;> rw [hjq] at h
  · exact absurd h (by simp)
  · by_cases h0 : q0 = ""
    · simp [h0] at h
    · simp only [h0, if_false] at h
      exact h

/-- `max(unique_queries, key=created_time)` returns a member. -/
theorem maxByCreated_mem :
    ∀ (t : List UniqueQuery) (h : UniqueQuery), maxByCreated h t ∈ h :: t := by
  intro t
  induction t with
  | nil =>
    intro h
    exact List.mem_cons_self _ _
  | cons x xs ih =>
    intro h
    have heq : maxByCreated h (x :: xs)
        = maxByCreated (if h.created_time < x.created_time then x else h) xs := rfl
    rw [heq]
    rcases List.mem_cons.mp (ih (if h.created_time < x.created_time then x else h)) with he | he
    · rw [he]
      by_cases hc : h.created_time < x.created_time
      · rw [if_pos hc]
        exact List.mem_cons.mpr (Or.inr (List.mem_cons_self _ _))
      · rw [if_neg hc]
        exact List.mem_cons_self _ _
    · exact List.mem_cons.mpr (Or.inr (List.mem_cons.mpr (Or.inr he)))

/-- `max(unique_queries, key=created_time)` dominates every member. -/
theorem maxByCreated_le :
    ∀ (t : List UniqueQuery) (h : UniqueQuery),
      ∀ e ∈ h :: t, e.created_time ≤ (maxByCreated h t).created_time := by
  intro t
  induction t with
  | nil =>
    intro h e he
    rcases List.mem_cons.mp he with rfl | he
    · exact le_refl _
    · exact absurd he (List.not_mem_nil e)
  | cons x xs ih =>
    intro h e he
    have heq : maxByCreated h (x :: xs)
        = maxByCreated (if h.created_time < x.created_time then x else h) xs := rfl
    rw [heq]
    have hh : h.created_time ≤ (if h.created_time < x.created_time then x else h).created_time := by
      by_cases hc : h.created_time < x.created_time
      · rw [if_pos hc]
        exact le_of_lt hc
      · rw [if_neg hc]
    have hx : x.created_time ≤ (if h.created_time < x.created_time then x else h).created_time := by
      by_cases hc : h.created_time < x.created_time
      · rw [if_pos hc]
      · rw [if_neg hc]
        omega
    have hmax := ih (if h.created_time < x.created_time then x else h) _ (List.mem_cons_self _ _)
    rcases List.mem_cons.mp he with rfl | he
    · exact le_trans hh hmax
    · rcases List.mem_cons.mp he with rfl | he2
      · exact le_trans hx hmax
      · exact ih _ e (List.mem_cons.mpr (Or.inr he2))

/-- Every canonical entry of `deduplicate_queries` carries the query,
creation time and id of some input job. -/
theorem dedup_entry_source (threshold : ℚ) :
    ∀ (l : List JobMetadata) (acc : List UniqueQuery) (e : UniqueQuery),
      e ∈ l.foldl (fun unique_queries job =>
        match queryText job with
        | none => unique_queries
        | some q =>
          if unique_queries.any (fun existing =>
              decide (threshold ≤ calculate_similarity q existing.query defaultSimilarityConfig))
          then unique_queries
          else unique_queries ++ [⟨q, job.job_id, job.created_time⟩]) acc →
      e ∈ acc ∨ ∃ j ∈ l, j.query = some e.query ∧ j.created_time = e.created_time
        ∧ j.job_id = e.job_id := by
  intro l
  induction l with
  | nil =>
    intro acc e he
    exact Or.inl he
  | cons j js ih =>
    intro acc e he
    rw [List.foldl_cons] at he
    rcases ih _ e he with hacc | ⟨j2, hj2, hrest⟩
    · rcases hq : queryText j with _ | q
      · rw [hq] at hacc
        exact Or.inl hacc
      · rw [hq] at hacc
        dsimp only at hacc
        by_cases hany : acc.any (fun existing =>
            decide (threshold ≤ calculate_similarity q existing.query defaultSimilarityConfig)) = true
        · rw [if_pos hany] at hacc
          exact Or.inl hacc
        · rw [if_neg hany] at hacc
          rcases List.mem_append.mp hacc with h2 | h2
          · exact Or.inl h2
          · rcases List.mem_cons.mp h2 with rfl | h3
            · exact Or.inr ⟨j, List.mem_cons_self _ _, queryText_eq j hq, rfl, rfl⟩
            · exact absurd h3 (List.not_mem_nil e)
    · exact Or.inr ⟨j2, List.mem_cons.mpr (Or.inr hj2), hrest⟩

/-- Claim C2, amended: the body written for a destination table is the
query of the most recently created CANONICAL entry of
`deduplicate_queries` — the first-seen representative of its similarity
cluster with maximal creation time — so it originates from some job of
that destination group, but a newer job classified as a duplicate does
not participate in the selection. -/
theorem C2_theorem (threshold : ℚ) (jobs : List JobMetadata)
    (ds tbl : String) (tjobs : List JobMetadata)
    (hgroup : ((ds, tbl), tjobs) ∈ jobsByTable jobs)
    (hne : deduplicate_queries threshold tjobs ≠ []) :
    ∃ e ∈ deduplicate_queries threshold tjobs,
      (ds ++ "/" ++ tbl ++ ".sql", e.query) ∈ generate_sql_files threshold jobs ∧
      (∀ e2 ∈ deduplicate_queries threshold tjobs,
        e2.created_time ≤ e.created_time) ∧
      ∃ j ∈ tjobs, j.query = some e.query ∧ j.created_time = e.created_time
        ∧ j.job_id = e.job_id := by
  rcases List.exists_cons_of_ne_nil hne with ⟨e0, es0, heq⟩
  refine ⟨maxByCreated e0 es0, ?_, ?_, ?_, ?_⟩
  · rw [heq]
    exact maxByCreated_mem es0 e0
  · refine List.mem_flatMap.mpr ⟨((ds, tbl), tjobs), hgroup, ?_⟩
    show (ds ++ "/" ++ tbl ++ ".sql", (maxByCreated e0 es0).query)
        ∈ (match deduplicate_queries threshold tjobs with
          | [] => ([] : List (String × String))
          | e :: es => [(ds ++ "/" ++ tbl ++ ".sql", (maxByCreated e es).query)])
    rw [heq]
    exact List.mem_cons_self _ _
  · intro e2 he2
    rw [heq] at he2
    exact maxByCreated_le es0 e0 e2 he2
  · have hmem : maxByCreated e0 es0 ∈ deduplicate_queries threshold tjobs := by
      rw [heq]
      exact maxByCreated_mem es0 e0
    rcases dedup_entry_source threshold tjobs [] (maxByCreated e0 es0) hmem with h | h
    · exact absurd h (List.not_mem_nil _)
    · exact h

/-- Witness for C2: the single-job group writes that job's query. -/
theorem C2_witness :
    ∃ e ∈ deduplicate_queries (9/10) [dupJobOld],
      ("d" ++ "/" ++ "t" ++ ".sql", e.query) ∈ generate_sql_files (9/10) [dupJobOld] ∧
      (∀ e2 ∈ deduplicate_queries (9/10) [dupJobOld],
        e2.created_time ≤ e.created_time) ∧
      ∃ j ∈ [dupJobOld], j.query = some e.query ∧ j.created_time = e.created_time
        ∧ j.job_id = e.job_id :=
  C2_theorem (9/10) [dupJobOld] "d" "t" [dupJobOld] (by decide) (by decide)

/-- The grouping key is blind to the destination project. -/
theorem jobGroupKey_mapDestProject (f : TableRefDict → String) (j : JobMetadata) :
    jobGroupKey (mapDestProject f j) = jobGroupKey j := by
  unfold jobGroupKey mapDestProject
  rcases hd : j.destination_table with _ | d <;> rfl

/-- Rewriting destination projects commutes with `addToGroups`. -/
theorem addToGroups_map (f : TableRefDict → String) (k : String × String) (j : JobMetadata) :
    ∀ groups : List ((String × String) × List JobMetadata),
      addToGroups (groups.map (fun p : (String × String) × List JobMetadata => (p.1, p.2.map (mapDestProject f)))) k (mapDestProject f j)
        = (addToGroups groups k j).map (fun p : (String × String) × List JobMetadata => (p.1, p.2.map (mapDestProject f))) := by
  intro groups
  induction groups with
  | nil => rfl
  | cons g gs ih =>
    simp only [List.map_cons, addToGroups]
    by_cases hk : g.1 = k
    · rw [if_pos hk, if_pos hk]
      simp [List.map_append]
    · rw [if_neg hk, if_neg hk, List.map_cons, ih]

/-- Grouping after rewriting destination projects is the project-rewritten
grouping: the group keys, and hence the file paths, never see the
project. -/
theorem jobsByTable_mapDest (f : TableRefDict → String) (jobs : List JobMetadata) :
    jobsByTable (jobs.map (mapDestProject f))
      = (jobsByTable jobs).map (fun p : (String × String) × List JobMetadata => (p.1, p.2.map (mapDestProject f))) := by
  have key : ∀ (l : List JobMetadata) (acc : List ((String × String) × List JobMetadata)),
      (l.map (mapDestProject f)).foldl (fun groups j =>
          match jobGroupKey j with
          | none => groups
          | some k => addToGroups groups k j)
        (acc.map (fun p : (String × String) × List JobMetadata => (p.1, p.2.map (mapDestProject f))))
      = (l.foldl (fun groups j =>
          match jobGroupKey j with
          | none => groups
          | some k => addToGroups groups k j) acc).map
            (fun p : (String × String) × List JobMetadata => (p.1, p.2.map (mapDestProject f))) := by
    intro l
    induction l with
    | nil => intro acc; rfl
    | cons j js ih =>
      intro acc
      rw [List.map_cons, List.foldl_cons, List.foldl_cons]
      have hstep : (match jobGroupKey (mapDestProject f j) with
          | none => acc.map (fun p : (String × String) × List JobMetadata => (p.1, p.2.map (mapDestProject f)))
          | some k => addToGroups (acc.map (fun p : (String × String) × List JobMetadata => (p.1, p.2.map (mapDestProject f)))) k
              (mapDestProject f j))
          = (match jobGroupKey j with
          | none => acc
          | some k => addToGroups acc k j).map (fun p : (String × String) × List JobMetadata => (p.1, p.2.map (mapDestProject f))) := by
        rw [jobGroupKey_mapDestProject]
        rcases hk : jobGroupKey j with _ | k
        · rfl
        · exact addToGroups_map f k j acc
      rw [hstep]
      exact ih _
  exact key jobs []

/-- Deduplication only reads `query`, `job_id` and `created_time`, none
of which the project rewrite touches. -/
theorem dedup_mapDest (threshold : ℚ) (f : TableRefDict → String) (l : List JobMetadata) :
    deduplicate_queries threshold (l.map (mapDestProject f))
      = deduplicate_queries threshold l := by
  unfold deduplicate_queries
  have key : ∀ (l : List JobMetadata) (acc : List UniqueQuery),
      (l.map (mapDestProject f)).foldl (fun unique_queries job =>
        match queryText job with
        | none => unique_queries
        | some q =>
          if unique_queries.any (fun existing =>
              decide (threshold ≤ calculate_similarity q existing.query defaultSimilarityConfig))
          then unique_queries
          else unique_queries ++ [⟨q, job.job_id, job.created_time⟩]) acc
      = l.foldl (fun unique_queries job =>
        match queryText job with
        | none => unique_queries
        | some q =>
          if unique_queries.any (fun existing =>
              decide (threshold ≤ calculate_similarity q existing.query defaultSimilarityConfig))
          then unique_queries
          else unique_queries ++ [⟨q, job.job_id, job.created_time⟩]) acc := by
    intro l
    induction l with
    | nil => intro acc; rfl
    | cons j js ih =>
      intro acc
      rw [List.map_cons, List.foldl_cons, List.foldl_cons]
      exact ih _
  exact key l []

/-- Claim C10 (confirmed): SQL generation groups jobs by
`(datasetId, tableId)` only.  (a) The emitted writes are invariant under
any rewriting of destination `projectId`s; (b) two jobs whose
destinations agree on dataset and table share a group key whatever their
projects; (c) every emitted path is the project-less
`{dataset}/{table}.sql` of its group. -/
theorem C10_theorem :
    (∀ (threshold : ℚ) (f : TableRefDict → String) (jobs : List JobMetadata),
      generate_sql_files threshold (jobs.map (mapDestProject f))
        = generate_sql_files threshold jobs) ∧
    (∀ (j1 j2 : JobMetadata) (d1 d2 : TableRefDict),
      j1.destination_table = some d1 → j2.destination_table = some d2 →
      d1.datasetId = d2.datasetId → d1.tableId = d2.tableId →
      jobGroupKey j1 = jobGroupKey j2) ∧
    (∀ (threshold : ℚ) (jobs : List JobMetadata) (w : String × String),
      w ∈ generate_sql_files threshold jobs →
      ∃ ds tbl tjobs, ((ds, tbl), tjobs) ∈ jobsByTable jobs ∧
        w.1 = ds ++ "/" ++ tbl ++ ".sql") := by
  refine ⟨?_, ?_, ?_⟩
  · intro threshold f jobs
    unfold generate_sql_files
    rw [jobsByTable_mapDest, List.flatMap_map]
    congr 1
    funext p
    show (match deduplicate_queries threshold (p.2.map (mapDestProject f)) with
        | [] => ([] : List (String × String))
        | e :: es => [(p.1.1 ++ "/" ++ p.1.2 ++ ".sql", (maxByCreated e es).query)]) = _
    rw [dedup_mapDest]
  · intro j1 j2 d1 d2 h1 h2 hds htbl
    unfold jobGroupKey
    rw [h1, h2]
    show some (d1.datasetId, d1.tableId) = some (d2.datasetId, d2.tableId)
    rw [hds, htbl]
  · intro threshold jobs w hw
    unfold generate_sql_files at hw
    rcases List.mem_flatMap.mp hw with ⟨⟨⟨ds0, tbl0⟩, tj⟩, hmem, hw2⟩
    refine ⟨ds0, tbl0, tj, hmem, ?_⟩
    rcases hd : deduplicate_queries threshold tj with _ | ⟨e, es⟩
    · rw [hd] at hw2
      exact absurd hw2 (List.not_mem_nil w)
    · rw [hd] at hw2
      rcases List.mem_cons.mp hw2 with rfl | h3
      · rfl
      · exact absurd h3 (List.not_mem_nil w)

/-- Witness for C10: the two cross-project jobs share a group key, and
the write produced for the first lands at the project-less path. -/
theorem C10_witness :
    jobGroupKey crossJobA = jobGroupKey crossJobB ∧
    ∃ ds tbl tjobs, ((ds, tbl), tjobs) ∈ jobsByTable [crossJobA] ∧
      (("d/t.sql", "abcdefghij") : String × String).1 = ds ++ "/" ++ tbl ++ ".sql" :=
  ⟨C10_theorem.2.1 crossJobA crossJobB ⟨"p1", "d", "t"⟩ ⟨"p2", "d", "t"⟩ rfl rfl rfl rfl,
   C10_theorem.2.2 (9/10) [crossJobA] ("d/t.sql", "abcdefghij") (by decide)⟩

/-- Witness for C8: even when a job for `orders` references `orders`
itself, the resolved dependency set omits the self-reference while
keeping `customers`. -/
theorem C8_witness :
    (⟨"proj", "ds", "orders"⟩ : DependencyTarget)
        ∉ collect_dependencies ordersTable [selfRefJob] ∧
    (⟨"proj", "ds", "customers"⟩ : DependencyTarget)
        ∈ collect_dependencies ordersTable [selfRefJob] :=
  ⟨C8_theorem ordersTable [selfRefJob], by decide⟩

/-- `GoodBest` on an explicit triple, with the projections reduced. -/
theorem goodBest_iff (alo ahi blo bhi bi bj bs : Nat) :
    GoodBest alo ahi blo bhi (bi, bj, bs) ↔
      alo ≤ bi ∧ blo ≤ bj ∧ (bs = 0 → bi = alo ∧ bj = blo) ∧
      (1 ≤ bs → bi + bs ≤ ahi ∧ bj + bs ≤ bhi) := Iff.rfl

/-- A `dget` value is zero or comes from an entry of the dict. -/
theorem dget_cases (d : List (Nat × Nat)) (x : Nat) :
    dget d x = 0 ∨ ∃ p, p ∈ d ∧ p.1 = x ∧ dget d x = p.2 := by
  rcases hf : d.find? (fun p => p.1 == x) with _ | p
  · left
    unfold dget
    rw [hf]
  · right
    refine ⟨p, List.mem_of_find?_eq_some hf, ?_, ?_⟩
    · have := List.find?_some hf
      simpa using this
    · unfold dget
      rw [hf]

/-- The inner row fold preserves the dict and block bounds. -/
theorem flmRowFold_GB (alo ahi blo bhi i : Nat) (j2len : List (Nat × Nat))
    (hi1 : alo ≤ i) (hi2 : i < ahi)
    (hd : ∀ p ∈ j2len, blo ≤ p.1 ∧ p.2 + blo ≤ p.1 + 1 ∧ p.2 + alo ≤ i) :
    ∀ (l : List Nat), (∀ j ∈ l, blo ≤ j ∧ j < bhi) →
    ∀ (st : List (Nat × Nat) × (Nat × Nat × Nat)),
      (∀ p ∈ st.1, blo ≤ p.1 ∧ p.2 + blo ≤ p.1 + 1 ∧ p.2 + alo ≤ i + 1) →
      GoodBest alo ahi blo bhi st.2 →
      (∀ p ∈ (l.foldl (fun st2 j =>
          let k := (if j = 0 then 0 else dget j2len (j - 1)) + 1
          (st2.1 ++ [(j, k)],
            if st2.2.2.2 < k then (i + 1 - k, j + 1 - k, k) else st2.2)) st).1,
        blo ≤ p.1 ∧ p.2 + blo ≤ p.1 + 1 ∧ p.2 + alo ≤ i + 1) ∧
      GoodBest alo ahi blo bhi ((l.foldl (fun st2 j =>
          let k := (if j = 0 then 0 else dget j2len (j - 1)) + 1
          (st2.1 ++ [(j, k)],
            if st2.2.2.2 < k then (i + 1 - k, j + 1 - k, k) else st2.2)) st).2) := by
  intro l
  induction l with
  | nil =>
    intro _ st h1 h2
    exact ⟨h1, h2⟩
  | cons j rest ih =>
    intro hmem st h1 h2
    have hj := hmem j (List.mem_cons_self _ _)
    have hk1 : (if j = 0 then 0 else dget j2len (j - 1)) + 1 + blo ≤ j + 1 := by
      by_cases h0 : j = 0
      · rw [if_pos h0]
        omega
      · rw [if_neg h0]
        rcases dget_cases j2len (j - 1) with hz | ⟨p, hp, hp1, hp2⟩
        · rw [hz]
          omega
        · have := hd p hp
          omega
    have hk2 : (if j = 0 then 0 else dget j2len (j - 1)) + 1 + alo ≤ i + 1 := by
      by_cases h0 : j = 0
      · rw [if_pos h0]
        omega
      · rw [if_neg h0]
        rcases dget_cases j2len (j - 1) with hz | ⟨p, hp, hp1, hp2⟩
        · rw [hz]
          omega
        · have := hd p hp
          omega
    rw [List.foldl_cons]
    refine ih (fun j2 hj2 => hmem j2 (List.mem_cons_of_mem _ hj2)) _ ?_ ?_
    · intro p hp
      rcases List.mem_append.mp hp with hp2 | hp2
      · exact h1 p hp2
      · rcases List.mem_cons.mp hp2 with rfl | hfalse
        · exact ⟨hj.1, hk1, hk2⟩
        · exact absurd hfalse (List.not_mem_nil p)
    · show GoodBest alo ahi blo bhi
        (if st.2.2.2 < (if j = 0 then 0 else dget j2len (j - 1)) + 1
          then (i + 1 - ((if j = 0 then 0 else dget j2len (j - 1)) + 1),
                j + 1 - ((if j = 0 then 0 else dget j2len (j - 1)) + 1),
                (if j = 0 then 0 else dget j2len (j - 1)) + 1)
          else st.2)
      by_cases hup : st.2.2.2 < (if j = 0 then 0 else dget j2len (j - 1)) + 1
      · rw [if_pos hup]
        unfold GoodBest
        dsimp only
        refine ⟨by omega, by omega, fun h => absurd h (by omega), fun _ => ⟨by omega, ?_⟩⟩
        have := hj.2
        omega
      · rw [if_neg hup]
        exact h2

/-- One row of `find_longest_match`'s dict phase preserves the bounds. -/
theorem flmRow_GB (alo ahi blo bhi i : Nat) (js : List Nat)
    (j2len : List (Nat × Nat)) (best : Nat × Nat × Nat)
    (hi1 : alo ≤ i) (hi2 : i < ahi)
    (hd : ∀ p ∈ j2len, blo ≤ p.1 ∧ p.2 + blo ≤ p.1 + 1 ∧ p.2 + alo ≤ i)
    (hb : GoodBest alo ahi blo bhi best) :
    (∀ p ∈ (flmRow j2len i js blo bhi best).1,
      blo ≤ p.1 ∧ p.2 + blo ≤ p.1 + 1 ∧ p.2 + alo ≤ i + 1) ∧
    GoodBest alo ahi blo bhi (flmRow j2len i js blo bhi best).2 := by
  unfold flmRow
  refine flmRowFold_GB alo ahi blo bhi i j2len hi1 hi2 hd _ ?_ ([], best) (by simp) hb
  intro j hj
  have h2 : j < bhi := by simpa using List.mem_takeWhile_imp hj
  have h1 : blo ≤ j := by
    have := (List.takeWhile_sublist _).mem hj
    simpa using (List.mem_filter.mp this).2
  exact ⟨h1, h2⟩

/-- The whole dict phase preserves the bounds across rows. -/
theorem flmRows_GB (a b : List Char) (alo ahi blo bhi : Nat) :
    ∀ (n i : Nat), alo ≤ i → i + n ≤ ahi →
    ∀ st : List (Nat × Nat) × (Nat × Nat × Nat),
      (∀ p ∈ st.1, blo ≤ p.1 ∧ p.2 + blo ≤ p.1 + 1 ∧ p.2 + alo ≤ i) →
      GoodBest alo ahi blo bhi st.2 →
      GoodBest alo ahi blo bhi (((List.range' i n).foldl
        (fun st i => flmRow st.1 i (b2j b (a.getD i ' ')) blo bhi st.2) st).2) := by
  intro n
  induction n with
  | zero =>
    intro i _ _ st _ h2
    exact h2
  | succ m ih =>
    intro i hi1 hi2 st h1 h2
    rw [List.range'_succ, List.foldl_cons]
    have hrow := flmRow_GB alo ahi blo bhi i (b2j b (a.getD i ' ')) st.1 st.2 hi1
      (by omega) h1 h2
    refine ih (i + 1) (by omega) (by omega) _ ?_ hrow.2
    intro p hp
    have := hrow.1 p hp
    omega

/-- The dict phase of `find_longest_match` returns a good block. -/
theorem flmDict_GB (a b : List Char) (alo ahi blo bhi : Nat) :
    GoodBest alo ahi blo bhi (flmDict a b alo ahi blo bhi) := by
  have hinit : GoodBest alo ahi blo bhi (alo, blo, 0) :=
    ⟨le_refl _, le_refl _, fun _ => ⟨rfl, rfl⟩, fun h => absurd h (by simp)⟩
  unfold flmDict
  by_cases h : alo ≤ ahi
  · exact flmRows_GB a b alo ahi blo bhi (ahi - alo) alo (le_refl _) (by omega)
      ([], (alo, blo, 0)) (by simp) hinit
  · rw [show ahi - alo = 0 from by omega]
    exact hinit

/-- The backward extension loop preserves the bounds. -/
theorem extendBack_GB (a b : List Char) (alo blo ahi bhi : Nat) :
    ∀ (fuel : Nat) (st : Nat × Nat × Nat), GoodBest alo ahi blo bhi st →
      GoodBest alo ahi blo bhi (extendBack a b alo blo fuel st) := by
  intro fuel
  induction fuel with
  | zero =>
    intro st h
    exact h
  | succ f ih =>
    rintro ⟨bi, bj, bs⟩ h
    show GoodBest alo ahi blo bhi
      (if alo < bi ∧ blo < bj ∧ a.getD (bi - 1) ' ' = b.getD (bj - 1) ' '
        then extendBack a b alo blo f (bi - 1, bj - 1, bs + 1)
        else (bi, bj, bs))
    rw [goodBest_iff] at h
    by_cases hc : alo < bi ∧ blo < bj ∧ a.getD (bi - 1) ' ' = b.getD (bj - 1) ' '
    · rw [if_pos hc]
      rcases Nat.eq_zero_or_pos bs with h0 | h0
      · have h00 := h.2.2.1 h0
        exact absurd hc.1 (by omega)
      · refine ih (bi - 1, bj - 1, bs + 1) ?_
        rw [goodBest_iff]
        have := h.2.2.2 h0
        exact ⟨by omega, by omega, fun hk => by omega, fun _ => by omega⟩
    · rw [if_neg hc]
      rw [goodBest_iff]
      exact h

/-- The forward extension loop preserves the bounds. -/
theorem extendFwd_GB (a b : List Char) (alo blo ahi bhi bi bj : Nat)
    (h1 : alo ≤ bi) (h2 : blo ≤ bj) :
    ∀ (fuel bs : Nat), (bs = 0 → bi = alo ∧ bj = blo) →
      (1 ≤ bs → bi + bs ≤ ahi ∧ bj + bs ≤ bhi) →
      GoodBest alo ahi blo bhi (bi, bj, extendFwd a b ahi bhi bi bj fuel bs) := by
  intro fuel
  induction fuel with
  | zero =>
    intro bs hz ho
    exact ⟨h1, h2, fun hk => hz hk, fun hk => ho hk⟩
  | succ f ih =>
    intro bs hz ho
    show GoodBest alo ahi blo bhi (bi, bj,
      if bi + bs < ahi ∧ bj + bs < bhi ∧ a.getD (bi + bs) ' ' = b.getD (bj + bs) ' '
        then extendFwd a b ahi bhi bi bj f (bs + 1)
        else bs)
    by_cases hc : bi + bs < ahi ∧ bj + bs < bhi ∧ a.getD (bi + bs) ' ' = b.getD (bj + bs) ' '
    · rw [if_pos hc]
      exact ih (bs + 1) (fun hk => by omega) (fun _ => by omega)
    · rw [if_neg hc]
      exact ⟨h1, h2, fun hk => hz hk, fun hk => ho hk⟩

/-- `find_longest_match` returns a good block. -/
theorem flm_GB (a b : List Char) (alo ahi blo bhi : Nat) :
    GoodBest alo ahi blo bhi (find_longest_match a b alo ahi blo bhi) := by
  unfold find_longest_match
  have hdict := flmDict_GB a b alo ahi blo bhi
  have hback := extendBack_GB a b alo blo ahi bhi
    ((flmDict a b alo ahi blo bhi).1 + 1) _ hdict
  exact extendFwd_GB a b alo blo ahi bhi _ _ hback.1 hback.2.1 (ahi + 1) _
    hback.2.2.1 hback.2.2.2

/-- The total matched size never exceeds either range length, whatever
the fuel: the matching blocks are disjoint in both sequences. -/
theorem matchesFuel_le (a b : List Char) :
    ∀ (fuel alo ahi blo bhi : Nat),
      matchesFuel a b fuel alo ahi blo bhi ≤ ahi - alo ∧
      matchesFuel a b fuel alo ahi blo bhi ≤ bhi - blo := by
  intro fuel
  induction fuel with
  | zero =>
    intro alo ahi blo bhi
    exact ⟨Nat.zero_le _, Nat.zero_le _⟩
  | succ f ih =>
    intro alo ahi blo bhi
    have hGB := flm_GB a b alo ahi blo bhi
    rcases hm : find_longest_match a b alo ahi blo bhi with ⟨i, j, k⟩
    rw [hm, goodBest_iff] at hGB
    have hstep : matchesFuel a b (f + 1) alo ahi blo bhi
        = if k = 0 then 0
          else k + (if alo < i ∧ blo < j then matchesFuel a b f alo i blo j else 0)
            + (if i + k < ahi ∧ j + k < bhi then matchesFuel a b f (i + k) ahi (j + k) bhi else 0) := by
      show (let m := find_longest_match a b alo ahi blo bhi
        let i := m.1
        let j := m.2.1
        let k := m.2.2
        if k = 0 then 0
        else k + (if alo < i ∧ blo < j then matchesFuel a b f alo i blo j else 0)
          + (if i + k < ahi ∧ j + k < bhi then matchesFuel a b f (i + k) ahi (j + k) bhi else 0)) = _
      rw [hm]
    rw [hstep]
    by_cases hk : k = 0
    · rw [if_pos hk]
      exact ⟨Nat.zero_le _, Nat.zero_le _⟩
    · rw [if_neg hk]
      have hb := hGB.2.2.2 (by omega)
      have hL1 : (if alo < i ∧ blo < j then matchesFuel a b f alo i blo j else 0) ≤ i - alo := by
        by_cases hc : alo < i ∧ blo < j
        · rw [if_pos hc]
          exact (ih alo i blo j).1
        · rw [if_neg hc]
          exact Nat.zero_le _
      have hL2 : (if alo < i ∧ blo < j then matchesFuel a b f alo i blo j else 0) ≤ j - blo := by
        by_cases hc : alo < i ∧ blo < j
        · rw [if_pos hc]
          exact (ih alo i blo j).2
        · rw [if_neg hc]
          exact Nat.zero_le _
      have hR1 : (if i + k < ahi ∧ j + k < bhi then matchesFuel a b f (i + k) ahi (j + k) bhi else 0)
          ≤ ahi - (i + k) := by
        by_cases hc : i + k < ahi ∧ j + k < bhi
        · rw [if_pos hc]
          exact (ih (i + k) ahi (j + k) bhi).1
        · rw [if_neg hc]
          exact Nat.zero_le _
      have hR2 : (if i + k < ahi ∧ j + k < bhi then matchesFuel a b f (i + k) ahi (j + k) bhi else 0)
          ≤ bhi - (j + k) := by
        by_cases hc : i + k < ahi ∧ j + k < bhi
        · rw [if_pos hc]
          exact (ih (i + k) ahi (j + k) bhi).2
        · rw [if_neg hc]
          exact Nat.zero_le _
      have h1 := hGB.1
      have h2 := hGB.2.1
      omega

/-- `ratio()` lies in `[0, 1]`. -/
theorem ratioQ_bounds (a b : List Char) : 0 ≤ ratioQ a b ∧ ratioQ a b ≤ 1 := by
  unfold ratioQ
  by_cases h : a.length + b.length = 0
  · rw [if_pos h]
    norm_num
  · rw [if_neg h]
    have hM := matchesFuel_le a b (a.length + b.length + 1) 0 a.length 0 b.length
    have hM2 : 2 * matchesTotal a b ≤ a.length + b.length := by
      unfold matchesTotal
      omega
    have hT : (0 : ℚ) < ((a.length + b.length : Nat) : ℚ) := by
      have : 0 < a.length + b.length := by omega
      exact_mod_cast this
    constructor
    · positivity
    · rw [div_le_one hT]
      exact_mod_cast hM2

/-- Below the window `dcsl` is zero. -/
theorem dcsl_lt_lo (a : List Char) (lo i : Nat) (h : i < lo) :
    dcsl a lo i = 0 := by
  cases i with
  | zero =>
    show (if 0 < lo ∨ popularChar a (a.getD 0 ' ') = true then 0 else 1) = 0
    rw [if_pos (Or.inl h)]
  | succ i' =>
    show (if i' + 1 < lo ∨ popularChar a (a.getD (i' + 1) ' ') = true then 0
      else dcsl a lo i' + 1) = 0
    rw [if_pos (Or.inl h)]

/-- At a popular position `dcsl` is zero. -/
theorem dcsl_pop (a : List Char) (lo i : Nat)
    (h : popularChar a (a.getD i ' ') = true) : dcsl a lo i = 0 := by
  cases i with
  | zero =>
    show (if 0 < lo ∨ popularChar a (a.getD 0 ' ') = true then 0 else 1) = 0
    rw [if_pos (Or.inr h)]
  | succ i' =>
    show (if i' + 1 < lo ∨ popularChar a (a.getD (i' + 1) ' ') = true then 0
      else dcsl a lo i' + 1) = 0
    rw [if_pos (Or.inr h)]

/-- The run counted by `dcsl` consists of non-popular positions and fits
inside `[lo, i]`. -/
theorem dcsl_run (a : List Char) (lo : Nat) :
    ∀ i, (∀ u < dcsl a lo i, ¬ popularChar a (a.getD (i - u) ' ') = true) ∧
      (1 ≤ dcsl a lo i → dcsl a lo i + lo ≤ i + 1) := by
  intro i
  induction i with
  | zero =>
    by_cases h : 0 < lo ∨ popularChar a (a.getD 0 ' ') = true
    · have h0 : dcsl a lo 0 = 0 := by
        show (if 0 < lo ∨ popularChar a (a.getD 0 ' ') = true then 0 else 1) = 0
        rw [if_pos h]
      rw [h0]
      exact ⟨fun u hu => absurd hu (by omega), fun h1 => absurd h1 (by omega)⟩
    · have h0 : dcsl a lo 0 = 1 := by
        show (if 0 < lo ∨ popularChar a (a.getD 0 ' ') = true then 0 else 1) = 1
        rw [if_neg h]
      push_neg at h
      rw [h0]
      refine ⟨fun u hu => ?_, fun _ => by omega⟩
      have hu0 : u = 0 := by omega
      subst hu0
      exact h.2
  | succ i' ih =>
    by_cases h : i' + 1 < lo ∨ popularChar a (a.getD (i' + 1) ' ') = true
    · have h0 : dcsl a lo (i' + 1) = 0 := by
        show (if i' + 1 < lo ∨ popularChar a (a.getD (i' + 1) ' ') = true then 0
          else dcsl a lo i' + 1) = 0
        rw [if_pos h]
      rw [h0]
      exact ⟨fun u hu => absurd hu (by omega), fun h1 => absurd h1 (by omega)⟩
    · have h0 : dcsl a lo (i' + 1) = dcsl a lo i' + 1 := by
        show (if i' + 1 < lo ∨ popularChar a (a.getD (i' + 1) ' ') = true then 0
          else dcsl a lo i' + 1) = dcsl a lo i' + 1
        rw [if_neg h]
      push_neg at h
      rw [h0]
      constructor
      · intro u hu
        cases u with
        | zero => exact h.2
        | succ u' =>
          have hu' : u' < dcsl a lo i' := by omega
          have hih := ih.1 u' hu'
          rw [show i' + 1 - (u' + 1) = i' - u' from by omega]
          exact hih
      · intro _
        by_cases hd : 1 ≤ dcsl a lo i'
        · have := ih.2 hd
          omega
        · have h1 := h.1
          omega

/-- A descending run of non-popular positions ending at `j` inside
`[lo, j]` is no longer than `dcsl` at `j`. -/
theorem nonpop_le_dcsl (a : List Char) (lo : Nat) :
    ∀ (k j : Nat), (∀ u < k, ¬ popularChar a (a.getD (j - u) ' ') = true) →
      k + lo ≤ j + 1 → k ≤ dcsl a lo j := by
  intro k
  induction k with
  | zero => intro j _ _; exact Nat.zero_le _
  | succ n ih =>
    intro j hnp hb
    have hj0 : ¬ popularChar a (a.getD j ' ') = true := by
      have := hnp 0 (by omega)
      simpa using this
    cases j with
    | zero =>
      have hn : n = 0 := by omega
      have hl : lo = 0 := by omega
      subst hn
      subst hl
      rw [show dcsl a 0 0 =
        (if 0 < 0 ∨ popularChar a (a.getD 0 ' ') = true then 0 else 1) from rfl]
      rw [if_neg (by push_neg; exact ⟨by omega, hj0⟩)]
    | succ j' =>
      rw [show dcsl a lo (j' + 1) =
        (if j' + 1 < lo ∨ popularChar a (a.getD (j' + 1) ' ') = true then 0
          else dcsl a lo j' + 1) from rfl]
      rw [if_neg (by push_neg; exact ⟨by omega, hj0⟩)]
      have hn : n ≤ dcsl a lo j' := by
        refine ih j' (fun u hu => ?_) (by omega)
        have := hnp (u + 1) (by omega)
        rw [show j' + 1 - (u + 1) = j' - u from by omega] at this
        exact this
      omega

/-- A `RunA` is bounded by `dcsl` at its `b`-side endpoint. -/
theorem runA_le_dcsl {a : List Char} {lo i j k : Nat}
    (h : RunA a lo i j k) : k ≤ dcsl a lo j :=
  nonpop_le_dcsl a lo k j (fun u hu => (h.1 u hu).2) h.2.1

/-- A `RunA` is bounded by `dcsl` at its `a`-side endpoint. -/
theorem runA_le_dcsl_a {a : List Char} {lo i j k : Nat}
    (h : RunA a lo i j k) : k ≤ dcsl a lo i := by
  refine nonpop_le_dcsl a lo k i (fun u hu => ?_) h.2.2
  rw [(h.1 u hu).1]
  exact (h.1 u hu).2

/-- `dcsl` at any already-processed row is at most `maxDiag`. -/
theorem dcsl_le_maxDiag (a : List Char) (lo : Nat) :
    ∀ i j, lo ≤ j → j < i → dcsl a lo j ≤ maxDiag a lo i := by
  intro i
  induction i with
  | zero => intro j _ hj; exact absurd hj (by omega)
  | succ m ih =>
    intro j hlo hj
    rw [show maxDiag a lo (m + 1) =
      (if m < lo then 0 else max (maxDiag a lo m) (dcsl a lo m)) from rfl]
    rw [if_neg (by omega)]
    rcases Nat.lt_or_ge j m with hjm | hjm
    · exact le_trans (ih j hlo hjm) (le_max_left _ _)
    · have hjeq : j = m := by omega
      subst hjeq
      exact le_max_right _ _

/-- Before any row is processed the best size is zero. -/
theorem maxDiag_lo (a : List Char) (lo : Nat) : maxDiag a lo lo = 0 := by
  cases lo with
  | zero => rfl
  | succ l =>
    show (if l < l + 1 then 0
      else max (maxDiag a (l + 1) l) (dcsl a (l + 1) l)) = 0
    rw [if_pos (by omega)]

/-- Appending an entry with a different key does not change a lookup. -/
theorem dget_append_ne (d : List (Nat × Nat)) (j k x : Nat) (h : j ≠ x) :
    dget (d ++ [(j, k)]) x = dget d x := by
  have hj : List.find? (fun p => p.1 == x) [(j, k)] = none := by
    rw [List.find?_eq_none]
    intro q hq
    rw [List.mem_singleton] at hq
    subst hq
    simpa using h
  unfold dget
  rw [List.find?_append, hj, Option.or_none]

/-- Appending an entry with a fresh key makes the lookup return it. -/
theorem dget_append_eq (d : List (Nat × Nat)) (x k : Nat)
    (h : ∀ p ∈ d, p.1 ≠ x) :
    dget (d ++ [(x, k)]) x = k := by
  have hd : d.find? (fun p => p.1 == x) = none := by
    rw [List.find?_eq_none]
    intro q hq
    simpa using h q hq
  have hx : List.find? (fun p => p.1 == x) [(x, k)] = some (x, k) :=
    List.find?_cons_of_pos _ (by simp)
  unfold dget
  rw [List.find?_append, hd, Option.none_or, hx]

/-- On a sorted position list, `break` at `j >= bhi` equals filtering. -/
theorem takeWhile_eq_filter_sorted (bhi : Nat) :
    ∀ l : List Nat, List.Pairwise (· < ·) l →
      l.takeWhile (fun j => decide (j < bhi)) =
        l.filter (fun j => decide (j < bhi)) := by
  intro l
  induction l with
  | nil => intro _; rfl
  | cons x xs ih =>
    intro hp
    rw [List.pairwise_cons] at hp
    by_cases hx : x < bhi
    · rw [List.takeWhile_cons, List.filter_cons]
      simp only [decide_eq_true hx, if_true]
      rw [ih hp.2]
    · have hnil : xs.filter (fun j => decide (j < bhi)) = [] := by
        rw [List.filter_eq_nil_iff]
        intro y hy
        have := hp.1 y hy
        simp only [decide_eq_true_eq]
        omega
      rw [List.takeWhile_cons, List.filter_cons]
      simp only [decide_eq_false hx, if_false]
      exact hnil.symm

/-- The occurrence lists built by `__chain_b` are strictly increasing. -/
theorem occurrenceList_sorted (b : List Char) (c : Char) :
    List.Pairwise (· < ·) (occurrenceList b c) :=
  List.Pairwise.filter _ (List.pairwise_lt_range b.length)

/-- Membership in an occurrence list. -/
theorem mem_occurrenceList {b : List Char} {c : Char} {j : Nat} :
    j ∈ occurrenceList b c ↔ j < b.length ∧ b.getD j ' ' = c := by
  unfold occurrenceList
  rw [List.mem_filter, List.mem_range]
  simp [beq_iff_eq]

/-- `flmRow` is the fold of `rowStepF` over the processed positions. -/
theorem flmRow_eq (j2len : List (Nat × Nat)) (i : Nat) (js : List Nat)
    (blo bhi : Nat) (best : Nat × Nat × Nat) :
    flmRow j2len i js blo bhi best =
      ((js.filter (fun j => decide (blo ≤ j))).takeWhile
        (fun j => decide (j < bhi))).foldl (rowStepF j2len i) ([], best) := rfl

/-- `rowStepF` written out. -/
theorem rowStepF_eq (j2len : List (Nat × Nat)) (i : Nat)
    (st : List (Nat × Nat) × (Nat × Nat × Nat)) (j : Nat) :
    rowStepF j2len i st j =
      (st.1 ++ [(j, (if j = 0 then 0 else dget j2len (j - 1)) + 1)],
        if st.2.2.2 < (if j = 0 then 0 else dget j2len (j - 1)) + 1
          then (i + 1 - ((if j = 0 then 0 else dget j2len (j - 1)) + 1),
            j + 1 - ((if j = 0 then 0 else dget j2len (j - 1)) + 1),
            (if j = 0 then 0 else dget j2len (j - 1)) + 1)
          else st.2) := rfl

/-- The inner fold of a self-comparison row over the (ascending)
positions of the row character: the invariant is preserved, the best
ends at `maxDiag` for the next row, and the diagonal entry records
`dcsl`. -/
theorem alignedInner (a : List Char) (lo i : Nat) (j2len : List (Nat × Nat))
    (hnp : ¬ popularChar a (a.getD i ' ') = true)
    (hloi : lo ≤ i)
    (Hprev : ∀ p ∈ j2len, lo ≤ p.1 ∧ 1 ≤ p.2 ∧ RunA a lo (i - 1) p.1 p.2)
    (Hzero : i = 0 → j2len = [])
    (Hdg : i = 0 ∨ dget j2len (i - 1) = dcsl a lo (i - 1)) :
    ∀ js : List Nat, List.Pairwise (· < ·) js →
      (∀ j ∈ js, lo ≤ j ∧ a.getD j ' ' = a.getD i ' ') →
      ∀ st : List (Nat × Nat) × (Nat × Nat × Nat), SelfInv a lo i st →
      ((i ∈ js ∧ st.2.2.2 = maxDiag a lo i ∧ ∀ p ∈ st.1, p.1 ≠ i) ∨
        (i ∉ js ∧ st.2.2.2 = maxDiag a lo (i + 1) ∧
          dget st.1 i = dcsl a lo i)) →
      SelfInv a lo i (js.foldl (rowStepF j2len i) st) ∧
      (js.foldl (rowStepF j2len i) st).2.2.2 = maxDiag a lo (i + 1) ∧
      dget (js.foldl (rowStepF j2len i) st).1 i = dcsl a lo i := by
  intro js
  induction js with
  | nil =>
    intro _ _ st hInv hDisj
    rcases hDisj with ⟨hin, _⟩ | ⟨_, hbs, hdgi⟩
    · exact absurd hin (List.not_mem_nil i)
    · exact ⟨hInv, hbs, hdgi⟩
  | cons j rest ih =>
    intro hsort hmem st hInv hDisj
    rw [List.pairwise_cons] at hsort
    obtain ⟨hj1, hj2⟩ := hmem j (List.mem_cons_self _ _)
    have hkRunA : RunA a lo i j
        ((if j = 0 then 0 else dget j2len (j - 1)) + 1) := by
      by_cases h0 : j = 0
      · subst h0
        rw [if_pos rfl]
        refine ⟨fun u hu => ?_, by omega, by omega⟩
        have hu0 : u = 0 := by omega
        subst hu0
        simp only [Nat.sub_zero]
        exact ⟨hj2.symm, by rw [hj2]; exact hnp⟩
      · rw [if_neg h0]
        rcases dget_cases j2len (j - 1) with hz | ⟨p, hp, hp1, hp2⟩
        · rw [hz]
          refine ⟨fun u hu => ?_, by omega, by omega⟩
          have hu0 : u = 0 := by omega
          subst hu0
          simp only [Nat.sub_zero]
          exact ⟨hj2.symm, by rw [hj2]; exact hnp⟩
        · have hine : i ≠ 0 := by
            intro hi
            rw [Hzero hi] at hp
            exact absurd hp (List.not_mem_nil p)
          rw [hp2]
          have hrun := (Hprev p hp).2.2
          rw [hp1] at hrun
          refine ⟨fun u hu => ?_, ?_, ?_⟩
          · cases u with
            | zero =>
              simp only [Nat.sub_zero]
              exact ⟨hj2.symm, by rw [hj2]; exact hnp⟩
            | succ u' =>
              have h2 := hrun.1 u' (by omega)
              rw [show i - (u' + 1) = i - 1 - u' from by omega,
                show j - (u' + 1) = j - 1 - u' from by omega]
              exact h2
          · have hb := hrun.2.1
            omega
          · have hb := hrun.2.2
            omega
    rw [List.foldl_cons]
    have hmd : maxDiag a lo (i + 1) = max (maxDiag a lo i) (dcsl a lo i) := by
      rw [show maxDiag a lo (i + 1) =
        (if i < lo then 0 else max (maxDiag a lo i) (dcsl a lo i)) from rfl]
      rw [if_neg (by omega)]
    rcases hDisj with ⟨hin, hbs, hkeys⟩ | ⟨hnin, hbs, hdgst⟩
    · by_cases hji : j = i
      · subst hji
        have hkval : (if j = 0 then 0 else dget j2len (j - 1)) + 1
            = dcsl a lo j := by
          by_cases hi0 : j = 0
          · rw [if_pos hi0]
            subst hi0
            have hlo0 : lo = 0 := by omega
            subst hlo0
            rw [show dcsl a 0 0 =
              (if 0 < 0 ∨ popularChar a (a.getD 0 ' ') = true
                then 0 else 1) from rfl]
            rw [if_neg (by push_neg; exact ⟨by omega, hnp⟩)]
          · rcases Hdg with hdg0 | hdg1
            · exact absurd hdg0 hi0
            · rw [if_neg hi0, hdg1]
              obtain ⟨i', rfl⟩ : ∃ i', j = i' + 1 := ⟨j - 1, by omega⟩
              rw [show dcsl a lo (i' + 1) =
                (if i' + 1 < lo ∨ popularChar a (a.getD (i' + 1) ' ') = true
                  then 0 else dcsl a lo i' + 1) from rfl]
              rw [if_neg (by push_neg; exact ⟨by omega, hnp⟩)]
              simp only [Nat.add_sub_cancel]
        have hd1 : 1 ≤ dcsl a lo j := by omega
        have hd2 := (dcsl_run a lo j).2 hd1
        have hnir : j ∉ rest := fun hir => absurd (hsort.1 j hir) (lt_irrefl j)
        by_cases hup : st.2.2.2 < (if j = 0 then 0 else dget j2len (j - 1)) + 1
        · rw [rowStepF_eq, if_pos hup]
          refine ih hsort.2
            (fun j2 hj2m => hmem j2 (List.mem_cons_of_mem _ hj2m)) _
            ⟨?_, rfl, ?_, ?_⟩ (Or.inr ⟨hnir, ?_, ?_⟩)
          · intro p hp
            rcases List.mem_append.mp hp with h1 | h1
            · exact hInv.1 p h1
            · rw [List.mem_singleton] at h1
              subst h1
              exact ⟨hj1, by omega, hkRunA⟩
          · intro hz
            dsimp only at hz
            omega
          · intro h1
            refine ⟨?_, ?_⟩
            · show lo ≤ j + 1 - ((if j = 0 then 0 else dget j2len (j - 1)) + 1)
              omega
            · show j + 1 - ((if j = 0 then 0 else dget j2len (j - 1)) + 1)
                + ((if j = 0 then 0 else dget j2len (j - 1)) + 1) ≤ j + 1
              omega
          · show (if j = 0 then 0 else dget j2len (j - 1)) + 1
              = maxDiag a lo (j + 1)
            rw [hmd]
            omega
          · show dget (st.1 ++ [(j, (if j = 0 then 0
                else dget j2len (j - 1)) + 1)]) j = dcsl a lo j
            rw [dget_append_eq st.1 j _ hkeys]
            exact hkval
        · rw [rowStepF_eq, if_neg hup]
          refine ih hsort.2
            (fun j2 hj2m => hmem j2 (List.mem_cons_of_mem _ hj2m)) _
            ⟨?_, hInv.2.1, hInv.2.2.1, hInv.2.2.2⟩ (Or.inr ⟨hnir, ?_, ?_⟩)
          · intro p hp
            rcases List.mem_append.mp hp with h1 | h1
            · exact hInv.1 p h1
            · rw [List.mem_singleton] at h1
              subst h1
              exact ⟨hj1, by omega, hkRunA⟩
          · show st.2.2.2 = maxDiag a lo (j + 1)
            rw [hmd]
            omega
          · show dget (st.1 ++ [(j, (if j = 0 then 0
                else dget j2len (j - 1)) + 1)]) j = dcsl a lo j
            rw [dget_append_eq st.1 j _ hkeys]
            exact hkval
      · have hir : i ∈ rest := by
          rcases List.mem_cons.mp hin with heq | h
          · exact absurd heq.symm hji
          · exact h
        have hjlt : j < i := hsort.1 i hir
        have hnup : ¬ st.2.2.2
            < (if j = 0 then 0 else dget j2len (j - 1)) + 1 := by
          have h1 := runA_le_dcsl hkRunA
          have h2 := dcsl_le_maxDiag a lo i j hj1 hjlt
          omega
        rw [rowStepF_eq, if_neg hnup]
        refine ih hsort.2
          (fun j2 hj2m => hmem j2 (List.mem_cons_of_mem _ hj2m)) _
          ⟨?_, hInv.2.1, hInv.2.2.1, hInv.2.2.2⟩ (Or.inl ⟨hir, hbs, ?_⟩)
        · intro p hp
          rcases List.mem_append.mp hp with h1 | h1
          · exact hInv.1 p h1
          · rw [List.mem_singleton] at h1
            subst h1
            exact ⟨hj1, by omega, hkRunA⟩
        · intro p hp
          rcases List.mem_append.mp hp with h1 | h1
          · exact hkeys p h1
          · rw [List.mem_singleton] at h1
            subst h1
            exact hji
    · have hji : j ≠ i := by
        intro h
        rw [h] at hnin
        exact hnin (List.mem_cons_self _ _)
      have hnir : i ∉ rest := fun h => hnin (List.mem_cons_of_mem _ h)
      have hnup : ¬ st.2.2.2
          < (if j = 0 then 0 else dget j2len (j - 1)) + 1 := by
        have h1 := runA_le_dcsl_a hkRunA
        have h2 := dcsl_le_maxDiag a lo (i + 1) i hloi (by omega)
        omega
      rw [rowStepF_eq, if_neg hnup]
      refine ih hsort.2
        (fun j2 hj2m => hmem j2 (List.mem_cons_of_mem _ hj2m)) _
        ⟨?_, hInv.2.1, hInv.2.2.1, hInv.2.2.2⟩ (Or.inr ⟨hnir, hbs, ?_⟩)
      · intro p hp
        rcases List.mem_append.mp hp with h1 | h1
        · exact hInv.1 p h1
        · rw [List.mem_singleton] at h1
          subst h1
          exact ⟨hj1, by omega, hkRunA⟩
      · show dget (st.1 ++ [(j, (if j = 0 then 0
            else dget j2len (j - 1)) + 1)]) i = dcsl a lo i
        rw [dget_append_ne st.1 j _ i hji]
        exact hdgst

/-- One full row of the self-comparison's dict phase: the new dict
records genuine runs with `dcsl` on the diagonal, and the best becomes
the diagonal maximum over the processed rows. -/
theorem alignedRow (a : List Char) (lo hi i : Nat)
    (hloi : lo ≤ i) (hihi : i < hi) (hlen : hi ≤ a.length)
    (j2len : List (Nat × Nat)) (best : Nat × Nat × Nat)
    (Hprev : ∀ p ∈ j2len, lo ≤ p.1 ∧ 1 ≤ p.2 ∧ RunA a lo (i - 1) p.1 p.2)
    (Hzero : i = 0 → j2len = [])
    (Hdg : i = 0 ∨ dget j2len (i - 1) = dcsl a lo (i - 1))
    (hb1 : best.1 = best.2.1) (hb0 : best.2.2 = 0 → best.1 = lo)
    (hbb : 1 ≤ best.2.2 → lo ≤ best.1 ∧ best.1 + best.2.2 ≤ i)
    (hbm : best.2.2 = maxDiag a lo i) :
    SelfInv a lo i (flmRow j2len i (b2j a (a.getD i ' ')) lo hi best) ∧
    (flmRow j2len i (b2j a (a.getD i ' ')) lo hi best).2.2.2
      = maxDiag a lo (i + 1) ∧
    dget (flmRow j2len i (b2j a (a.getD i ' ')) lo hi best).1 i
      = dcsl a lo i := by
  have hmd : maxDiag a lo (i + 1) = max (maxDiag a lo i) (dcsl a lo i) := by
    rw [show maxDiag a lo (i + 1) =
      (if i < lo then 0 else max (maxDiag a lo i) (dcsl a lo i)) from rfl]
    rw [if_neg (by omega)]
  by_cases hpop : popularChar a (a.getD i ' ') = true
  · have hb2j : b2j a (a.getD i ' ') = [] := by
      unfold b2j
      rw [if_pos hpop]
    have hd0 : dcsl a lo i = 0 := dcsl_pop a lo i hpop
    rw [hb2j]
    rw [show flmRow j2len i [] lo hi best = ([], best) from rfl]
    refine ⟨⟨?_, hb1, hb0, ?_⟩, ?_, ?_⟩
    · intro p hp
      exact absurd hp (List.not_mem_nil p)
    · intro h1
      refine ⟨(hbb h1).1, ?_⟩
      show best.1 + best.2.2 ≤ i + 1
      have := (hbb h1).2
      omega
    · show best.2.2 = maxDiag a lo (i + 1)
      rw [hmd]
      omega
    · show dget [] i = dcsl a lo i
      rw [hd0]
      rfl
  · have hb2j : b2j a (a.getD i ' ') = occurrenceList a (a.getD i ' ') := by
      unfold b2j
      rw [if_neg hpop]
    have hsorted1 : List.Pairwise (· < ·)
        ((occurrenceList a (a.getD i ' ')).filter
          (fun j => decide (lo ≤ j))) :=
      List.Pairwise.filter _ (occurrenceList_sorted a _)
    have htw : ((occurrenceList a (a.getD i ' ')).filter
          (fun j => decide (lo ≤ j))).takeWhile (fun j => decide (j < hi))
        = ((occurrenceList a (a.getD i ' ')).filter
          (fun j => decide (lo ≤ j))).filter (fun j => decide (j < hi)) :=
      takeWhile_eq_filter_sorted hi _ hsorted1
    rw [hb2j, flmRow_eq, htw]
    refine alignedInner a lo i j2len hpop hloi Hprev Hzero Hdg _
      (List.Pairwise.filter _ hsorted1) ?_ ([], best)
      ⟨?_, hb1, hb0, ?_⟩ (Or.inl ⟨?_, hbm, ?_⟩)
    · intro j hjP
      have h2 := List.mem_filter.mp hjP
      have h3 := List.mem_filter.mp h2.1
      exact ⟨by simpa using h3.2, (mem_occurrenceList.mp h3.1).2⟩
    · intro p hp
      exact absurd hp (List.not_mem_nil p)
    · intro h1
      refine ⟨(hbb h1).1, ?_⟩
      show best.1 + best.2.2 ≤ i + 1
      have := (hbb h1).2
      omega
    · refine List.mem_filter.mpr ⟨List.mem_filter.mpr
        ⟨mem_occurrenceList.mpr ⟨by omega, rfl⟩, ?_⟩, ?_⟩
      · simpa using hloi
      · simpa using hihi
    · intro p hp
      exact absurd hp (List.not_mem_nil p)

/-- The rows `[i, hi)` of the self-comparison's dict phase, by induction
on the number of remaining rows: at the end the best block is diagonal
and of size `maxDiag a lo hi`. -/
theorem alignedRows (a : List Char) (lo hi : Nat) (hlen : hi ≤ a.length) :
    ∀ n i, lo ≤ i → i + n = hi →
    ∀ st : List (Nat × Nat) × (Nat × Nat × Nat),
      (∀ p ∈ st.1, lo ≤ p.1 ∧ 1 ≤ p.2 ∧ RunA a lo (i - 1) p.1 p.2) →
      (i = 0 → st.1 = []) →
      (i = 0 ∨ dget st.1 (i - 1) = dcsl a lo (i - 1)) →
      st.2.1 = st.2.2.1 →
      (st.2.2.2 = 0 → st.2.1 = lo) →
      (1 ≤ st.2.2.2 → lo ≤ st.2.1 ∧ st.2.1 + st.2.2.2 ≤ i) →
      st.2.2.2 = maxDiag a lo i →
      ((List.range' i n).foldl
          (fun st i => flmRow st.1 i (b2j a (a.getD i ' ')) lo hi st.2)
          st).2.1 =
        ((List.range' i n).foldl
          (fun st i => flmRow st.1 i (b2j a (a.getD i ' ')) lo hi st.2)
          st).2.2.1 ∧
      (((List.range' i n).foldl
          (fun st i => flmRow st.1 i (b2j a (a.getD i ' ')) lo hi st.2)
          st).2.2.2 = 0 →
        ((List.range' i n).foldl
          (fun st i => flmRow st.1 i (b2j a (a.getD i ' ')) lo hi st.2)
          st).2.1 = lo) ∧
      (1 ≤ ((List.range' i n).foldl
          (fun st i => flmRow st.1 i (b2j a (a.getD i ' ')) lo hi st.2)
          st).2.2.2 →
        lo ≤ ((List.range' i n).foldl
          (fun st i => flmRow st.1 i (b2j a (a.getD i ' ')) lo hi st.2)
          st).2.1 ∧
        ((List.range' i n).foldl
          (fun st i => flmRow st.1 i (b2j a (a.getD i ' ')) lo hi st.2)
          st).2.1 +
          ((List.range' i n).foldl
            (fun st i => flmRow st.1 i (b2j a (a.getD i ' ')) lo hi st.2)
            st).2.2.2 ≤ hi) := by
  intro n
  induction n with
  | zero =>
    intro i _ hsum st _ _ _ hb1 hb0 hbb _
    have hieq : i = hi := by omega
    subst hieq
    exact ⟨hb1, hb0, hbb⟩
  | succ m ih =>
    intro i hloi hsum st h1 h2 h3 hb1 hb0 hbb hbm
    rw [List.range'_succ, List.foldl_cons]
    have hrow := alignedRow a lo hi i hloi (by omega) hlen st.1 st.2
      h1 h2 h3 hb1 hb0 hbb hbm
    refine ih (i + 1) (by omega) (by omega) _ hrow.1.1
      (fun h => absurd h (Nat.succ_ne_zero i)) (Or.inr hrow.2.2)
      hrow.1.2.1 hrow.1.2.2.1 hrow.1.2.2.2 hrow.2.1

/-- The dict phase of the self-comparison on an aligned window returns a
diagonal best block inside the window. -/
theorem alignedDict (a : List Char) (lo hi : Nat) (hlohi : lo ≤ hi)
    (hlen : hi ≤ a.length) :
    (flmDict a a lo hi lo hi).1 = (flmDict a a lo hi lo hi).2.1 ∧
    ((flmDict a a lo hi lo hi).2.2 = 0 → (flmDict a a lo hi lo hi).1 = lo) ∧
    (1 ≤ (flmDict a a lo hi lo hi).2.2 →
      lo ≤ (flmDict a a lo hi lo hi).1 ∧
      (flmDict a a lo hi lo hi).1 + (flmDict a a lo hi lo hi).2.2 ≤ hi) := by
  have h3 : lo = 0 ∨ dget ([] : List (Nat × Nat)) (lo - 1)
      = dcsl a lo (lo - 1) := by
    by_cases hl0 : lo = 0
    · exact Or.inl hl0
    · refine Or.inr ?_
      rw [dcsl_lt_lo a lo (lo - 1) (by omega)]
      rfl
  have h := alignedRows a lo hi hlen (hi - lo) lo le_rfl (by omega)
    ([], (lo, lo, 0)) (fun p hp => absurd hp (List.not_mem_nil p))
    (fun _ => rfl) h3 rfl (fun _ => rfl)
    (by intro h1; dsimp only at h1; omega) (maxDiag_lo a lo).symm
  exact h

/-- The backward extension loop on a diagonal block of the
self-comparison extends it all the way down to `lo`. -/
theorem extendBack_diag (a : List Char) (lo : Nat) :
    ∀ fuel bi bs, lo ≤ bi → bi - lo < fuel →
      extendBack a a lo lo fuel (bi, bi, bs) = (lo, lo, bs + (bi - lo)) := by
  intro fuel
  induction fuel with
  | zero => intro bi bs _ h; exact absurd h (by omega)
  | succ f ih =>
    intro bi bs hlo hf
    rw [show extendBack a a lo lo (f + 1) (bi, bi, bs) =
      (if lo < bi ∧ lo < bi ∧ a.getD (bi - 1) ' ' = a.getD (bi - 1) ' '
        then extendBack a a lo lo f (bi - 1, bi - 1, bs + 1)
        else (bi, bi, bs)) from rfl]
    by_cases hbi : lo < bi
    · rw [if_pos ⟨hbi, hbi, rfl⟩]
      rw [ih (bi - 1) (bs + 1) (by omega) (by omega)]
      rw [show bs + 1 + (bi - 1 - lo) = bs + (bi - lo) from by omega]
    · rw [if_neg (fun h => absurd h.1 hbi)]
      have hbe : bi = lo := by omega
      subst hbe
      rw [show bi - bi = 0 from by omega, Nat.add_zero]

/-- The forward extension loop on a diagonal block anchored at `lo`
extends it up to the whole window `[lo, hi)`. -/
theorem extendFwd_diag (a : List Char) (hi lo : Nat) :
    ∀ fuel s, s ≤ hi - lo → hi - lo - s < fuel →
      extendFwd a a hi hi lo lo fuel s = hi - lo := by
  intro fuel
  induction fuel with
  | zero => intro s _ h; exact absurd h (by omega)
  | succ f ih =>
    intro s hs hf
    rw [show extendFwd a a hi hi lo lo (f + 1) s =
      (if lo + s < hi ∧ lo + s < hi ∧ a.getD (lo + s) ' ' = a.getD (lo + s) ' '
        then extendFwd a a hi hi lo lo f (s + 1) else s) from rfl]
    by_cases hc : lo + s < hi
    · rw [if_pos ⟨hc, hc, rfl⟩]
      exact ih (s + 1) (by omega) (by omega)
    · rw [if_neg (fun h => absurd h.1 hc)]
      omega

/-- `find_longest_match` of the self-comparison on an aligned window is
the whole window. -/
theorem flm_aligned (a : List Char) (lo hi : Nat) (hlohi : lo ≤ hi)
    (hlen : hi ≤ a.length) :
    find_longest_match a a lo hi lo hi = (lo, lo, hi - lo) := by
  have hd := alignedDict a lo hi hlohi hlen
  rcases hD : flmDict a a lo hi lo hi with ⟨bi, bj, bs⟩
  rw [hD] at hd
  dsimp only at hd
  obtain ⟨hd1, hd0, hdb⟩ := hd
  subst hd1
  have hlobi : lo ≤ bi := by
    by_cases h0 : bs = 0
    · rw [hd0 h0]
    · exact (hdb (by omega)).1
  have hbihi : bs + (bi - lo) ≤ hi - lo := by
    by_cases h0 : bs = 0
    · rw [hd0 h0]
      omega
    · have := hdb (by omega)
      omega
  show (let d := flmDict a a lo hi lo hi
    let e := extendBack a a lo lo (d.1 + 1) d
    let k := extendFwd a a hi hi e.1 e.2.1 (hi + 1) e.2.2
    (e.1, e.2.1, k)) = (lo, lo, hi - lo)
  rw [hD]
  dsimp only
  rw [extendBack_diag a lo (bi + 1) bi bs hlobi (by omega)]
  dsimp only
  rw [extendFwd_diag a hi lo (hi + 1) (bs + (bi - lo)) hbihi (by omega)]

/-- The matching blocks of the self-comparison on an aligned window
cover the whole window. -/
theorem matchesFuel_self (a : List Char) (fuel lo hi : Nat)
    (hlohi : lo ≤ hi) (hlen : hi ≤ a.length) :
    matchesFuel a a (fuel + 1) lo hi lo hi = hi - lo := by
  have hm := flm_aligned a lo hi hlohi hlen
  show (let m := find_longest_match a a lo hi lo hi
    let i := m.1
    let j := m.2.1
    let k := m.2.2
    if k = 0 then 0
    else k + (if lo < i ∧ lo < j then matchesFuel a a fuel lo i lo j else 0)
      + (if i + k < hi ∧ j + k < hi
          then matchesFuel a a fuel (i + k) hi (j + k) hi else 0))
    = hi - lo
  rw [hm]
  dsimp only
  by_cases h0 : hi - lo = 0
  · rw [if_pos h0]
    omega
  · rw [if_neg h0]
    rw [if_neg (fun h => absurd h.1 (lt_irrefl lo))]
    rw [if_neg (fun h => absurd h.1 (by omega))]
    omega

/-- `ratio()` of a sequence against itself is `1.0`. -/
theorem ratioQ_self (a : List Char) : ratioQ a a = 1 := by
  by_cases h : a.length = 0
  · unfold ratioQ
    rw [if_pos (by omega)]
  · unfold ratioQ
    rw [if_neg (by omega)]
    unfold matchesTotal
    rw [matchesFuel_self a (a.length + a.length) 0 a.length
      (Nat.zero_le _) le_rfl]
    rw [Nat.sub_zero]
    have hpos : (0 : ℚ) < ((a.length + a.length : Nat) : ℚ) := by
      have h2 : 0 < a.length + a.length := by omega
      exact_mod_cast h2
    have heq : (2 * (a.length : ℚ)) = ((a.length + a.length : Nat) : ℚ) := by
      push_cast
      ring
    rw [heq]
    exact div_self (ne_of_gt hpos)

/-- Claim C7 (as corrected): `calculate_similarity` always returns a
value in `[0, 1]`, and `calculate_similarity(a, a)` equals `1.0`
whenever the normalised form of `a` has length at least `min_length`.
The symmetry part of the original claim is false: see the
counterexample, where the two argument orders give different ratios. -/
theorem C7_theorem (query1 query2 : String) (config : QuerySimilarityConfig) :
    0 ≤ calculate_similarity query1 query2 config ∧
    calculate_similarity query1 query2 config ≤ 1 ∧
    (config.min_length ≤ (normalise_query query1 config).data.length →
      calculate_similarity query1 query1 config = 1) := by
  refine ⟨?_, ?_, ?_⟩
  · show 0 ≤ (if (normalise_query query1 config).data.length
          < config.min_length ∨
        (normalise_query query2 config).data.length < config.min_length
      then 0
      else ratioQ (normalise_query query1 config).data
        (normalise_query query2 config).data)
    by_cases h : (normalise_query query1 config).data.length
          < config.min_length ∨
        (normalise_query query2 config).data.length < config.min_length
    · rw [if_pos h]
    · rw [if_neg h]
      exact (ratioQ_bounds _ _).1
  · show (if (normalise_query query1 config).data.length
          < config.min_length ∨
        (normalise_query query2 config).data.length < config.min_length
      then 0
      else ratioQ (normalise_query query1 config).data
        (normalise_query query2 config).data) ≤ 1
    by_cases h : (normalise_query query1 config).data.length
          < config.min_length ∨
        (normalise_query query2 config).data.length < config.min_length
    · rw [if_pos h]
      norm_num
    · rw [if_neg h]
      exact (ratioQ_bounds _ _).2
  · intro hlen
    show (if (normalise_query query1 config).data.length
          < config.min_length ∨
        (normalise_query query1 config).data.length < config.min_length
      then 0
      else ratioQ (normalise_query query1 config).data
        (normalise_query query1 config).data) = 1
    rw [if_neg (by push_neg; exact ⟨by omega, by omega⟩)]
    exact ratioQ_self _

set_option maxRecDepth 8000 in
/-- Claim C7, counterexample to the symmetry part: `SequenceMatcher`
breaks ties among equally long matching blocks by the earliest position
in its first argument, so the recursive block decomposition depends on
the argument order; on this (normalisation-invariant) pair the two
orders give 11/12 and 5/6. -/
theorem C7_counterexample :
    calculate_similarity "ccccccccaba" "ccccccccbabba"
      defaultSimilarityConfig = 11 / 12 ∧
    calculate_similarity "ccccccccbabba" "ccccccccaba"
      defaultSimilarityConfig = 5 / 6 ∧
    (11 : ℚ) / 12 ≠ 5 / 6 := by
  refine ⟨?_, ?_, by norm_num⟩
  · unfold calculate_similarity
    rw [show (normalise_query "ccccccccaba" defaultSimilarityConfig).data
        = "ccccccccaba".data from by decide]
    rw [show (normalise_query "ccccccccbabba" defaultSimilarityConfig).data
        = "ccccccccbabba".data from by decide]
    rw [if_neg (by decide)]
    unfold ratioQ
    rw [if_neg (by decide)]
    rw [show matchesTotal "ccccccccaba".data "ccccccccbabba".data = 11
      from by decide]
    rw [show ("ccccccccaba".data.length + "ccccccccbabba".data.length : Nat)
        = 24 from by decide]
    norm_num
  · unfold calculate_similarity
    rw [show (normalise_query "ccccccccbabba" defaultSimilarityConfig).data
        = "ccccccccbabba".data from by decide]
    rw [show (normalise_query "ccccccccaba" defaultSimilarityConfig).data
        = "ccccccccaba".data from by decide]
    rw [if_neg (by decide)]
    unfold ratioQ
    rw [if_neg (by decide)]
    rw [show matchesTotal "ccccccccbabba".data "ccccccccaba".data = 10
      from by decide]
    rw [show ("ccccccccbabba".data.length + "ccccccccaba".data.length : Nat)
        = 24 from by decide]
    norm_num

/-- Witness for C7 at concrete queries: the bounds hold, the normalised
form of the query is long enough, and the self-similarity is exactly 1. -/
theorem C7_witness :
    (0 ≤ calculate_similarity "select a from t1" "xyz"
        defaultSimilarityConfig ∧
      calculate_similarity "select a from t1" "xyz"
        defaultSimilarityConfig ≤ 1) ∧
    defaultSimilarityConfig.min_length ≤
      (normalise_query "select a from t1" defaultSimilarityConfig).data.length ∧
    calculate_similarity "select a from t1" "select a from t1"
      defaultSimilarityConfig = 1 := by
  have h := C7_theorem "select a from t1" "xyz" defaultSimilarityConfig
  exact ⟨⟨h.1, h.2.1⟩, by decide, h.2.2 (by decide)⟩
